import Mathlib

set_option maxHeartbeats 1000000
set_option maxRecDepth 4096

/-!
Verification of mp3v0fs, a read-only FUSE filesystem that projects a tree
of FLAC audio files as lazily transcoded MP3 files.  The definitions below
are shallow embeddings of the Rust sources (src/inode.rs, src/tags.rs,
src/encode.rs, src/mp3v0fs.rs); definitions whose doc comment says
"Modelled from the spec" embed the specification text instead, for
comparison with the code.
-/

/-- Modulus of 64-bit unsigned integer arithmetic. -/
def U64 : Nat := 2 ^ 64

/-- Wrapping 64-bit unsigned subtraction, the release-build semantics of the
Rust `-=` on `u64` operands below `U64`. -/
def sub64 (a b : Nat) : Nat := (a + (U64 - b % U64)) % U64

/-- Wrapping 64-bit unsigned multiplication. -/
def mul64 (a b : Nat) : Nat := (a * b) % U64

/-- Wrapping 64-bit unsigned addition. -/
def add64 (a b : Nat) : Nat := (a + b) % U64

/-- Rust `str::split` with a single-character separator, on the character
list of the string.  Rust yields at least one (possibly empty) piece, and
empty pieces around consecutive separators; this definition matches that. -/
def splitChar (sep : Char) : List Char → List (List Char)
  | [] => [[]]
  | c :: rest =>
    if c = sep then [] :: splitChar sep rest
    else
      match splitChar sep rest with
      | [] => [[c]]
      | h :: t => (c :: h) :: t

/-- Rust `Vec::join` with a single-character separator. -/
def joinChar (sep : Char) : List (List Char) → List Char
  | [] => []
  | [x] => x
  | x :: xs => x ++ sep :: joinChar sep xs

/-- Embedding of `parse_name` (src/mp3v0fs.rs): the final `/`-separated
component of a path. -/
def parse_name (path : String) : String :=
  match splitChar '/' path.data with
  | [] => ""
  | comps => ⟨comps.getLastD []⟩

/-- Embedding of `parse_extension` (src/mp3v0fs.rs): the substring after the
final `.` of the final `/`-separated component, or empty. -/
def parse_extension (path : String) : String :=
  match splitChar '/' path.data with
  | [] => ""
  | comps =>
    match splitChar '.' (comps.getLastD []) with
    | [] => ""
    | [_] => ""
    | nae => ⟨nae.getLastD []⟩

/-- The file-name part of `replace_extension` (src/mp3v0fs.rs): drop the last
`.`-separated piece and append the replacement (single-piece names pass
through unchanged). -/
def replaceExtFilename (fileName repl : List Char) : List Char :=
  match splitChar '.' fileName with
  | [] => []
  | [single] => single
  | nae => joinChar '.' (nae.dropLast ++ [repl])

/-- Embedding of `replace_extension` (src/mp3v0fs.rs): replace the extension
of the final path component, keeping the directory prefix verbatim. -/
def replace_extension (path repl : String) : String :=
  match splitChar '/' path.data with
  | [] => ""
  | comps => ⟨joinChar '/' (comps.dropLast ++ [replaceExtFilename (comps.getLastD []) repl.data])⟩

/-- Models `PathBuf` collection of `[parent, name]` (used by
`InodeTable::add_or_get`): an absolute `name` replaces the parent, an empty
`name` contributes nothing, otherwise the two are joined with `/`. -/
def pathJoin (parent name : String) : String :=
  if name.data.head? = some '/' then name
  else if name = "" then parent
  else if parent.data.getLast? = some '/' then parent ++ name
  else parent ++ "/" ++ name

/-- Joining of a directory path and a relative member path, modelling
`PathBuf::join` with a relative right operand (an empty operand leaves the
path unchanged; a separator is inserted unless one is already present). -/
def joinRel (a b : String) : String :=
  if b = "" then a
  else if a = "" then b
  else if a.data.getLast? = some '/' then a ++ b
  else a ++ "/" ++ b

/-- Models `Path::strip_prefix("/")` followed by `unwrap`: `none` is the
panic on a path that is not absolute. -/
def stripSlash (s : String) : Option String :=
  if s.data.head? = some '/' then some ⟨s.data.drop 1⟩ else none

/-- Models Rust `String::to_uppercase` (full Unicode uppercasing), spelled
out for the characters this development evaluates it on: ASCII letters map
into `A`-`Z`; U+0131 (dotless i) uppercases to `I`; U+017F (long s)
uppercases to `S`; the remaining characters appearing in this development
are fixed points of Unicode uppercasing. -/
def rustCharToUppercase (c : Char) : List Char :=
  if 'a' ≤ c ∧ c ≤ 'z' then [Char.ofNat (c.toNat - 32)]
  else if c = 'ı' then ['I']
  else if c = 'ſ' then ['S']
  else [c]

/-- Rust `String::to_uppercase`, mapping each character through
`rustCharToUppercase`. -/
def rustToUppercase (s : String) : String :=
  ⟨(s.data.map rustCharToUppercase).flatten⟩

/-- Embedding of `translate_vorbis_comment_to_id3` (src/tags.rs).  An ID3
frame is represented as the pair of its frame id and its text content. -/
def translate_vorbis_comment_to_id3 (vorbis_name vorbis_value : String) :
    Option (String × String) :=
  match rustToUppercase vorbis_name with
  | "ALBUM" => some ("TALB", vorbis_value)
  | "TITLE" => some ("TIT2", vorbis_value)
  | "ALBUMARTIST" => some ("TPE2", vorbis_value)
  | "ARTIST" => some ("TPE1", vorbis_value)
  | "TRACKNUMBER" => some ("TRCK", vorbis_value)
  | "YEAR" => some ("TYER", vorbis_value)
  | "ISRC" => some ("TSRC", vorbis_value)
  | "GENRE" => some ("TCON", vorbis_value)
  | "COMMENT" => some ("COMM", vorbis_value)
  | "COPYRIGHT" => some ("TCOP", vorbis_value)
  | _ => none

/-- Modelled from the spec: ASCII-only uppercasing of one character ("The
comparison on `name` is ASCII case-insensitive"). -/
def asciiUpperChar (c : Char) : Char :=
  if 'a' ≤ c ∧ c ≤ 'z' then Char.ofNat (c.toNat - 32) else c

/-- Modelled from the spec: ASCII-only uppercasing of a string. -/
def asciiUppercase (s : String) : String :=
  ⟨s.data.map asciiUpperChar⟩

/-- Modelled from the spec: the tag translation table of section 4.1 with an
ASCII case-insensitive comparison on the vorbis name. -/
def specTranslate (vorbis_name vorbis_value : String) :
    Option (String × String) :=
  match asciiUppercase vorbis_name with
  | "ALBUM" => some ("TALB", vorbis_value)
  | "TITLE" => some ("TIT2", vorbis_value)
  | "ALBUMARTIST" => some ("TPE2", vorbis_value)
  | "ARTIST" => some ("TPE1", vorbis_value)
  | "TRACKNUMBER" => some ("TRCK", vorbis_value)
  | "YEAR" => some ("TYER", vorbis_value)
  | "ISRC" => some ("TSRC", vorbis_value)
  | "GENRE" => some ("TCON", vorbis_value)
  | "COMMENT" => some ("COMM", vorbis_value)
  | "COPYRIGHT" => some ("TCOP", vorbis_value)
  | _ => none

/-- Embedding of `InodeTableEntry` (src/inode.rs). -/
structure InodeTableEntry where
  inode : Nat
  lookups : Nat
deriving DecidableEq

/-- Embedding of `InodeTable` (src/inode.rs): the two hash maps are modelled
as functions to `Option`.  `next_inode` is the 64-bit allocation counter;
its increment in `add_or_get` wraps modulo `U64`, the release-build
semantics of the source's `self.next_inode += 1` on `u64`. -/
structure InodeTable where
  inodes_by_path : String → Option InodeTableEntry
  paths_by_inode : Nat → Option String
  next_inode : Nat

/-- Embedding of `InodeTable::new`: the root entry `("/", {inode 1,
lookups 1})` and counter 2. -/
def InodeTable.new : InodeTable where
  inodes_by_path := fun p => if p = "/" then some ⟨1, 1⟩ else none
  paths_by_inode := fun i => if i = 1 then some "/" else none
  next_inode := 2

/-- Embedding of `InodeTable::lookup`: increments the lookup count and
returns it.  `none` models the two `panic!` arms on an unknown inode or
path. -/
def InodeTable.lookup (t : InodeTable) (inode : Nat) : Option (Nat × InodeTable) :=
  match t.paths_by_inode inode with
  | none => none
  | some path =>
    match t.inodes_by_path path with
    | none => none
    | some e =>
      some (e.lookups + 1,
        { t with inodes_by_path := fun p =>
            if p = path then some ⟨e.inode, e.lookups + 1⟩ else t.inodes_by_path p })

/-- Embedding of `InodeTable::add_or_get`: returns the inode and path for
`(parent_inode, name)`, inserting a fresh entry with zero lookups when the
path is new; the counter increment wraps (u64 release semantics).  `none`
models the `panic!` on an unknown parent inode. -/
def InodeTable.add_or_get (t : InodeTable) (parent_inode : Nat) (name : String) :
    Option ((Nat × String) × InodeTable) :=
  match t.paths_by_inode parent_inode with
  | none => none
  | some parentPath =>
    let path := pathJoin parentPath name
    match t.inodes_by_path path with
    | some e => some ((e.inode, path), t)
    | none =>
      let inode := t.next_inode
      some ((inode, path),
        { inodes_by_path := fun p => if p = path then some ⟨inode, 0⟩ else t.inodes_by_path p,
          paths_by_inode := fun i => if i = inode then some path else t.paths_by_inode i,
          next_inode := (t.next_inode + 1) % U64 })

/-- Embedding of `InodeTable::forget`: a no-op on inode 1 or an absent
entry; otherwise the unguarded `u64` subtraction `lookups -= nlookups`
(wrapping, see `sub64`) followed by eviction from both maps when the
count is zero. -/
def InodeTable.forget (t : InodeTable) (ino : Nat) (nlookups : Nat) : InodeTable :=
  if ino = 1 then t
  else
    match t.paths_by_inode ino with
    | none => t
    | some path =>
      match t.inodes_by_path path with
      | none => t
      | some e =>
        let l := sub64 e.lookups nlookups
        if l = 0 then
          { t with
            inodes_by_path := fun p => if p = path then none else t.inodes_by_path p,
            paths_by_inode := fun i => if i = ino then none else t.paths_by_inode i }
        else
          { t with inodes_by_path := fun p =>
              if p = path then some ⟨e.inode, l⟩ else t.inodes_by_path p }

/-- Embedding of `InodeTable::get_path`. -/
def InodeTable.get_path (t : InodeTable) (inode : Nat) : Option String :=
  t.paths_by_inode inode

/-- Embedding of `InodeTable::get_inode`. -/
def InodeTable.get_inode (t : InodeTable) (path : String) : Option Nat :=
  match t.inodes_by_path path with
  | some e => some e.inode
  | none => none

/-- One inode-table operation, for stating reachability. -/
inductive TableOp where
  | addOrGetOp (parent : Nat) (name : String)
  | lookupOp (ino : Nat)
  | forgetOp (ino : Nat) (n : Nat)

/-- Applies one operation to a table.  The `none` results of `lookup` and
`add_or_get` are panics, which leave the table as it was. -/
def applyTableOp (t : InodeTable) : TableOp → InodeTable
  | .addOrGetOp p n =>
    match t.add_or_get p n with
    | some (_, t2) => t2
    | none => t
  | .lookupOp i =>
    match t.lookup i with
    | some (_, t2) => t2
    | none => t
  | .forgetOp i n => t.forget i n

/-- The table reached from the freshly constructed table by a sequence of
operations. -/
def runTableOps (ops : List TableOp) : InodeTable :=
  ops.foldl applyTableOp InodeTable.new

/-- Mutual coherence of the two maps: every entry of one has the matching
entry in the other. -/
def Coherent (t : InodeTable) : Prop :=
  (∀ p e, t.inodes_by_path p = some e → t.paths_by_inode e.inode = some p) ∧
  (∀ i p, t.paths_by_inode i = some p →
    ∃ e, t.inodes_by_path p = some e ∧ e.inode = i)

/-- Allocation freshness: every inode at or above the counter is unused. -/
def FreshInodes (t : InodeTable) : Prop :=
  ∀ i, t.next_inode ≤ i → t.paths_by_inode i = none

/-- Embedding of the `Encode` trait (src/encode.rs) over a session state
type: the methods an implementor provides and that the provided `read`
method consumes. -/
structure EncodeImpl (σ : Type) where
  encode : σ → Nat → Nat × σ
  encode_finalize : σ → Nat × σ
  get_output_buffer : σ → List Nat
  set_output_buffer : σ → List Nat → σ
  get_encoding_finished : σ → Bool

/-- The `while self.encode(size) > 0 \x7b continue \x7d` loop of
`Encode::read`, with explicit fuel; `none` models divergence. -/
def encodeLoop {σ : Type} (impl : EncodeImpl σ) : Nat → σ → Nat → Option σ
  | 0, _, _ => none
  | fuel+1, s, size =>
    match impl.encode s size with
    | (produced, s2) => if 0 < produced then encodeLoop impl fuel s2 size else some s2

/-- Embedding of the provided method `Encode::read` (src/encode.rs lines
28-44): when encoding is not finished, run `encode` until it produces zero
bytes and then `encode_finalize`; afterwards pop at most `size` bytes off
the front of the output buffer. -/
def Encode.read {σ : Type} (impl : EncodeImpl σ) (fuel : Nat) (s : σ) (size : Nat) :
    Option (List Nat × σ) :=
  let post :=
    if impl.get_encoding_finished s then some s
    else
      match encodeLoop impl fuel s size with
      | none => none
      | some s1 => some (impl.encode_finalize s1).2
  match post with
  | none => none
  | some s1 =>
    let buf := impl.get_output_buffer s1
    some (buf.take size, impl.set_output_buffer s1 (buf.drop size))

/-- Modelled from the spec: the `read(n)` loop of section 4.4, which runs
encode steps only while encoding is unfinished and the buffer holds fewer
than `n` bytes, finalizing when a step produces zero bytes. -/
def specReadLoop {σ : Type} (impl : EncodeImpl σ) : Nat → σ → Nat → Option σ
  | 0, _, _ => none
  | fuel+1, s, n =>
    if impl.get_encoding_finished s = false ∧ (impl.get_output_buffer s).length < n then
      match impl.encode s n with
      | (produced, s2) =>
        if produced = 0 then some (impl.encode_finalize s2).2
        else specReadLoop impl fuel s2 n
    else some s

/-- Modelled from the spec: `read(n)` of section 4.4, the spec loop followed
by returning up to `n` bytes from the front of the output buffer. -/
def specRead {σ : Type} (impl : EncodeImpl σ) (fuel : Nat) (s : σ) (n : Nat) :
    Option (List Nat × σ) :=
  match specReadLoop impl fuel s n with
  | none => none
  | some s1 =>
    let buf := impl.get_output_buffer s1
    some (buf.take n, impl.set_output_buffer s1 (buf.drop n))

/-- A concrete encoder session used to evaluate `Encode.read` and compare it
with the spec pseudocode: `encode` pops one pending chunk onto the buffer,
and `encode_finalize` marks the encoding finished. -/
structure TestEnc where
  pending : List (List Nat)
  buffer : List Nat
  finished : Bool
deriving DecidableEq

/-- The `EncodeImpl` instance for `TestEnc`. -/
def testEncImpl : EncodeImpl TestEnc where
  encode := fun s _ =>
    match s.pending with
    | [] => (0, s)
    | c :: rest => (c.length, { s with pending := rest, buffer := s.buffer ++ c })
  encode_finalize := fun s => (0, { s with finished := true })
  get_output_buffer := fun s => s.buffer
  set_output_buffer := fun s b => { s with buffer := b }
  get_encoding_finished := fun s => s.finished

/-- Embedding of `claxon::metadata::StreamInfo`, the fields the encoder
session reads. -/
structure StreamInfo where
  channels : Nat
  sample_rate : Nat
  samples : Option Nat
deriving DecidableEq

/-- The data of a `FlacToMp3Encoder` that `calculate_size` consumes:
`stream_info` and `tag_size` are session fields, `vbr_max_bitrate` and
`out_samplerate` are the LAME context values queried by the method. -/
structure Mp3SessionInfo where
  stream_info : StreamInfo
  tag_size : Nat
  vbr_max_bitrate : Nat
  out_samplerate : Nat
deriving DecidableEq

/-- The LAME maximum VBR frame size constant (src/encode.rs). -/
def MAX_VBR_FRAME_SIZE : Nat := 2880

/-- Embedding of `FlacToMp3Encoder::calculate_size` (src/encode.rs lines
213-221), in `u64` arithmetic: `tag_size + 2880 + (samples * 144 * bitrate
* 10) / (samplerate / 100)` with truncating division.  `none` models the
`expect` panic on a missing sample count and the division-by-zero panic. -/
def calculate_size (e : Mp3SessionInfo) : Option Nat :=
  match e.stream_info.samples with
  | none => none
  | some sc =>
    let divisor := e.out_samplerate / 100
    if divisor = 0 then none
    else some (add64 (add64 e.tag_size MAX_VBR_FRAME_SIZE)
      (mul64 (mul64 (mul64 sc 144) e.vbr_max_bitrate) 10 / divisor))

/-- Modelled from the spec: `tag_size + 2880 + ceil(total_samples * 144 *
max_bitrate_kbps * 10 / (out_sample_rate / 100))` in exact integer
arithmetic with a ceiling on the division. -/
def specCalculateSize (e : Mp3SessionInfo) : Option Nat :=
  match e.stream_info.samples with
  | none => none
  | some sc =>
    let divisor := e.out_samplerate / 100
    if divisor = 0 then none
    else some (e.tag_size + MAX_VBR_FRAME_SIZE +
      (sc * 144 * e.vbr_max_bitrate * 10 + (divisor - 1)) / divisor)

/-- The file type of a backing `std::fs` entry. -/
inductive RFileType where
  | regular
  | directory
  | symlink
  | other
deriving DecidableEq

/-- The FUSE file types the filesystem emits. -/
inductive FuseFileType where
  | regularFile
  | directory
  | symlink
deriving DecidableEq

/-- Embedding of `adapt_filetype` (src/mp3v0fs.rs). -/
def adapt_filetype : RFileType → Option FuseFileType
  | .regular => some .regularFile
  | .directory => some .directory
  | .symlink => some .symlink
  | .other => none

/-- Embedding of `std::fs::Metadata`, the fields `stat` copies. -/
structure RMetadata where
  msize : Nat
  blocks : Nat
  mode : Nat
  nlink : Nat
  uid : Nat
  gid : Nat
  rdev : Nat
  atime : Nat
  mtime : Nat
  ftype : RFileType
deriving DecidableEq

/-- One result of iterating `std::fs::read_dir`: an I/O error (skipped by
`readdir`), or an entry with a name and the result of `file_type()`
(`none` models an errored file-type query). -/
inductive DirEntryRes where
  | errEntry
  | okEntry (name : String) (ftype : Option RFileType)
deriving DecidableEq

/-- The backing filesystem environment the operations consult: path
existence (for `real_path`), directory listings keyed by real path, and
file metadata keyed by real path. -/
structure BackingFs where
  pathExists : String → Bool
  readDir : String → Option (List DirEntryRes)
  metadata : String → Option RMetadata

/-- Embedding of `Mp3V0Fs::real_path` relative to the target: strips the
leading `/` of the mount-side path, keeps it when it exists verbatim under
the target, and otherwise rewrites the extension to `flac`.  `none` models
the `unwrap` panic on a non-absolute path. -/
def real_path_rel (env : BackingFs) (target mountPath : String) : Option String :=
  match stripSlash mountPath with
  | none => none
  | some p =>
    if env.pathExists (joinRel target p) then some p
    else some (replace_extension p "flac")

/-- Embedding of `Mp3V0Fs::real_path`: the resolved path under the target
directory. -/
def real_path (env : BackingFs) (target mountPath : String) : Option String :=
  (real_path_rel env target mountPath).map (fun p => joinRel target p)

/-- Embedding of `Mp3V0Fs::fuse_path`, applied to the real path already
stripped of the target prefix: a `flac` extension is rewritten to `mp3`,
anything else passes through, and the result is joined below `/`. -/
def fuse_path (mountPath : String) : String :=
  if parse_extension mountPath = "flac" then pathJoin "/" (replace_extension mountPath "mp3")
  else pathJoin "/" mountPath

/-- Embedding of the `Mp3V0Fs` filesystem state: the target directory, the
open-handle registry `fds`, and the inode table.  The per-open encoder
session type is a parameter. -/
structure Mp3V0Fs (σ : Type) where
  target : String
  fds : Nat → Option σ
  inode_table : InodeTable

/-- Embedding of `Mp3V0Fs::new`. -/
def Mp3V0Fs.new {σ : Type} (target : String) : Mp3V0Fs σ :=
  { target := target, fds := fun _ => none, inode_table := InodeTable.new }

/-- The FUSE file attributes `stat` synthesizes. -/
structure FileAttr where
  ino : Nat
  size : Nat
  blocks : Nat
  atime : Nat
  mtime : Nat
  ctime : Nat
  crtime : Nat
  kind : FuseFileType
  perm : Nat
  nlink : Nat
  uid : Nat
  gid : Nat
  rdev : Nat
  flags : Nat
deriving DecidableEq

/-- Embedding of `Mp3V0Fs::stat` (src/mp3v0fs.rs lines 64-95): reads the
backing metadata of the real path and synthesizes the FUSE attributes,
doubling the backing size (the source line `size: metadata.size() * 2`
marked `// TODO calculate`).  `none` models every error arm (the callers
reply with error 1). -/
def Mp3V0Fs.stat {σ : Type} (env : BackingFs) (fs : Mp3V0Fs σ) (ino : Nat)
    (fusePathArg : String) : Option FileAttr :=
  match real_path env fs.target fusePathArg with
  | none => none
  | some rp =>
    match env.metadata rp with
    | none => none
    | some md =>
      match adapt_filetype md.ftype with
      | none => none
      | some k =>
        some { ino := ino, size := mul64 md.msize 2, blocks := md.blocks,
               atime := md.atime, mtime := md.mtime, ctime := md.mtime, crtime := md.mtime,
               kind := k, perm := md.mode % 2 ^ 16, nlink := md.nlink % 2 ^ 32,
               uid := md.uid, gid := md.gid, rdev := md.rdev % 2 ^ 32, flags := 0 }

/-- Reply of the `open` entry point. -/
inductive OpenReply where
  | opened (fh : Nat) (flags : Nat)
  | error (code : Nat)
  | panicked
deriving DecidableEq

/-- Embedding of `Mp3V0Fs::open` (src/mp3v0fs.rs lines 135-164): resolve
the path (error 1 when the inode is unknown), construct the session
(`mkSession` composes `FlacReader::open` and `FlacToMp3Encoder::new`;
`panicked` models the `panic!` on an open failure), register it under the
inode unless one is already registered (then error 1), and reply opened. -/
def Mp3V0Fs.openFile {σ : Type} (env : BackingFs) (mkSession : String → Option σ)
    (fs : Mp3V0Fs σ) (ino : Nat) (flags : Nat) : OpenReply × Mp3V0Fs σ :=
  match fs.inode_table.get_path ino with
  | none => (.error 1, fs)
  | some path =>
    match real_path env fs.target path with
    | none => (.panicked, fs)
    | some rp =>
      match fs.fds ino with
      | none =>
        match mkSession rp with
        | none => (.panicked, fs)
        | some s =>
          (.opened ino flags, { fs with fds := fun j => if j = ino then some s else fs.fds j })
      | some _ => (.error 1, fs)

/-- Reply of the `read` entry point. -/
inductive ReadReply where
  | data (bytes : List Nat)
  | error (code : Nat)
  | panicked
  | diverged
deriving DecidableEq

/-- Embedding of `Mp3V0Fs::read` (src/mp3v0fs.rs lines 166-182): error 1
when the inode is unknown, `panicked` models the `panic!` when no session
is registered under the handle, otherwise delegate to `Encode::read`. -/
def Mp3V0Fs.read {σ : Type} (impl : EncodeImpl σ) (fuel : Nat) (fs : Mp3V0Fs σ)
    (ino fh : Nat) (size : Nat) : ReadReply × Mp3V0Fs σ :=
  match fs.inode_table.get_path ino with
  | none => (.error 1, fs)
  | some _ =>
    match fs.fds fh with
    | none => (.panicked, fs)
    | some enc =>
      match Encode.read impl fuel enc size with
      | none => (.diverged, fs)
      | some (bytes, enc2) =>
        (.data bytes, { fs with fds := fun j => if j = fh then some enc2 else fs.fds j })

/-- Reply of the `readdir` entry point.  Each emitted entry carries the
inode, the offset passed to `reply.add`, the FUSE file type and the name. -/
inductive ReaddirReply where
  | ok (entries : List (Nat × Int × FuseFileType × String))
  | error (code : Nat)
  | panicked
deriving DecidableEq

/-- The `readdir` entry loop (src/mp3v0fs.rs lines 236-266): erroring
results are skipped, each surviving entry is projected through `fuse_path`
and registered with `add_or_get`, entries whose file type is unsupported
are skipped, a failing `file_type()` aborts with error 1, and `reply.add`
(modelled with an entry capacity `cap`) breaks out when the buffer is
full. -/
def readdirLoop (dirIno : Nat) (base : String) (cap : Nat) :
    List DirEntryRes → Nat → List (Nat × Int × FuseFileType × String) → InodeTable →
    ReaddirReply × InodeTable
  | [], _, acc, tbl => (.ok acc, tbl)
  | .errEntry :: rest, idx, acc, tbl => readdirLoop dirIno base cap rest (idx + 1) acc tbl
  | .okEntry name ftypeRes :: rest, idx, acc, tbl =>
    let fp := fuse_path (joinRel base name)
    match tbl.add_or_get dirIno fp with
    | none => (.panicked, tbl)
    | some (r, tbl2) =>
      match ftypeRes with
      | none => (.error 1, tbl2)
      | some ft =>
        match adapt_filetype ft with
        | none => readdirLoop dirIno base cap rest (idx + 1) acc tbl2
        | some fft =>
          if acc.length < cap then
            readdirLoop dirIno base cap rest (idx + 1)
              (acc ++ [(r.1, (1 : Int) + (idx : Int), fft, parse_name fp)]) tbl2
          else (.ok acc, tbl2)

/-- Embedding of `Mp3V0Fs::readdir` (src/mp3v0fs.rs lines 209-269): a
positive offset replies with the empty terminator; otherwise the real
directory is listed and each entry projected by `readdirLoop`. -/
def Mp3V0Fs.readdir {σ : Type} (env : BackingFs) (cap : Nat) (fs : Mp3V0Fs σ)
    (ino : Nat) (offset : Int) : ReaddirReply × Mp3V0Fs σ :=
  if 0 < offset then (.ok [], fs)
  else
    match fs.inode_table.get_path ino with
    | none => (.error 1, fs)
    | some path =>
      match real_path_rel env fs.target path with
      | none => (.panicked, fs)
      | some rel =>
        match env.readDir (joinRel fs.target rel) with
        | none => (.error 1, fs)
        | some entries =>
          match readdirLoop ino rel cap entries 0 [] fs.inode_table with
          | (r, tbl2) => (r, { fs with inode_table := tbl2 })

/-- The name a backing entry is listed under, as established by the
listing characterization: a `flac` extension is rewritten to `mp3`, any
other name passes through unchanged. -/
def projectedName (n : String) : String :=
  if parse_extension n = "flac" then replace_extension n "mp3" else n

/-- Wraps a `(name, filetype)` pair as a successfully read directory
entry. -/
def mkOkEntry (p : String × RFileType) : DirEntryRes :=
  .okEntry p.1 (some p.2)

/-- The extension of a single file-name component (the `.`-split part of
`parse_extension`). -/
def extOfFilename (fileName : List Char) : String :=
  match splitChar '.' fileName with
  | [] => ""
  | [_] => ""
  | nae => ⟨nae.getLastD []⟩

/-- Backing entries of the directory used to evaluate `readdir`: one FLAC
file and one plain text file. -/
def entriesC1 : List (String × RFileType) :=
  [("C1.flac", .regular), ("notes.txt", .regular)]

/-- Backing filesystem with target directory `t` holding `entriesC1`. -/
def envC1 : BackingFs where
  pathExists := fun _ => true
  readDir := fun p => if p = "t" then some (entriesC1.map mkOkEntry) else none
  metadata := fun _ => none

/-- Fresh filesystem state mounted over target `t`. -/
def fsC1 : Mp3V0Fs Unit := Mp3V0Fs.new "t"

/-- Backing metadata of a 100-byte regular file. -/
def mdC3 : RMetadata :=
  { msize := 100, blocks := 8, mode := 420, nlink := 1, uid := 1000, gid := 1000,
    rdev := 0, atime := 5, mtime := 7, ftype := .regular }

/-- Backing filesystem with a single 100-byte regular file `t/notes.txt`. -/
def envC3 : BackingFs where
  pathExists := fun p => if p = "t/notes.txt" then true else false
  readDir := fun _ => none
  metadata := fun p => if p = "t/notes.txt" then some mdC3 else none

/-- Fresh filesystem state over target `t`, for the `stat` evaluation. -/
def fsC3 : Mp3V0Fs Unit := Mp3V0Fs.new "t"

/-- Fresh filesystem state over target `t` whose sessions are `TestEnc`
values, for the `read` evaluations. -/
def fsC4 : Mp3V0Fs TestEnc := Mp3V0Fs.new "t"

/-- Backing filesystem where every path exists, for the `open`
evaluations. -/
def envC5 : BackingFs where
  pathExists := fun _ => true
  readDir := fun _ => none
  metadata := fun _ => none

/-- Session constructor that always succeeds, for the `open` evaluations. -/
def mkC5 : String → Option Unit := fun _ => some ()

/-- Fresh filesystem state over target `t`, for the `open` evaluations. -/
def fsC5 : Mp3V0Fs Unit := Mp3V0Fs.new "t"

/-- Encoder state holding two buffered bytes and one pending chunk, on
which the code loop and the spec loop of `read` disagree. -/
def sC2 : TestEnc := { pending := [[1, 2, 3]], buffer := [9, 9], finished := false }

/-- The state `Encode.read` leaves behind when run on `sC2` with request
size 1. -/
def sC2done : TestEnc := { pending := [], buffer := [9, 1, 2, 3], finished := true }

/-- Session data on which the truncating and the ceiling division of
`calculate_size` differ: one sample at 44100 Hz. -/
def sessC6 : Mp3SessionInfo :=
  { stream_info := { channels := 2, sample_rate := 44100, samples := some 1 },
    tag_size := 0, vbr_max_bitrate := 320, out_samplerate := 44100 }

/-- Session data for the closed-form evaluation of `calculate_size`. -/
def sessC6w : Mp3SessionInfo :=
  { stream_info := { channels := 2, sample_rate := 44100, samples := some 1000 },
    tag_size := 100, vbr_max_bitrate := 320, out_samplerate := 44100 }

/-- A table holding the root and one entry `/a` with inode 2 and three
lookups, for the `forget` evaluations. -/
def tC10 : InodeTable where
  inodes_by_path := fun p =>
    if p = "/a" then some ⟨2, 3⟩ else if p = "/" then some ⟨1, 1⟩ else none
  paths_by_inode := fun i =>
    if i = 2 then some "/a" else if i = 1 then some "/" else none
  next_inode := 3

/-- The k-th name of the counter-wrapping operation sequence: `k + 1`
copies of the letter `a`, so all names are distinct, non-empty and free
of separators. -/
def wrapName (k : Nat) : String := ⟨List.replicate (k + 1) 'a'⟩

/-- The projected path the k-th wrapping operation inserts under the
root. -/
def wrapPath (k : Nat) : String := pathJoin "/" (wrapName k)

/-- The first `n` operations of the counter-wrapping sequence: fresh
`add_or_get` insertions under the root with pairwise distinct names. -/
def wrapOps (n : Nat) : List TableOp :=
  (List.range n).map (fun k => TableOp.addOrGetOp 1 (wrapName k))

/-! Helper lemmas about splitting and joining on a separator character. -/

theorem splitChar_nil (sep : Char) : splitChar sep [] = [[]] := rfl

theorem splitChar_cons (sep c : Char) (rest : List Char) :
    splitChar sep (c :: rest) =
      if c = sep then [] :: splitChar sep rest
      else
        match splitChar sep rest with
        | [] => [[c]]
        | h :: t => (c :: h) :: t := rfl

theorem splitChar_ne_nil (sep : Char) : ∀ l : List Char, splitChar sep l ≠ []
  | [] => by simp [splitChar]
  | c :: rest => by
    unfold splitChar
    by_cases hc : c = sep
    · simp [hc]
    · simp only [if_neg hc]
      cases h : splitChar sep rest with
      | nil => simp
      | cons a t => simp

theorem splitChar_of_not_mem (sep : Char) (l : List Char) (h : sep ∉ l) :
    splitChar sep l = [l] := by
  induction l with
  | nil => rfl
  | cons c rest ih =>
    have hc : ¬ c = sep := fun e => h (by simp [e])
    have hr : sep ∉ rest := fun e => h (by simp [e])
    unfold splitChar
    rw [if_neg hc, ih hr]

theorem splitChar_append (sep : Char) (xs ys : List Char) :
    splitChar sep (xs ++ sep :: ys) = splitChar sep xs ++ splitChar sep ys := by
  induction xs with
  | nil =>
    rw [List.nil_append, splitChar_cons, if_pos rfl, splitChar_nil]
    rfl
  | cons c xs ih =>
    rw [List.cons_append, splitChar_cons, splitChar_cons, ih]
    by_cases hc : c = sep
    · rw [if_pos hc, if_pos hc, List.cons_append]
    · rw [if_neg hc, if_neg hc]
      cases h : splitChar sep xs with
      | nil => exact absurd h (splitChar_ne_nil sep xs)
      | cons a t => simp

theorem joinChar_splitChar (sep : Char) (l : List Char) :
    joinChar sep (splitChar sep l) = l := by
  induction l with
  | nil => rfl
  | cons c rest ih =>
    by_cases hc : c = sep
    · rw [splitChar_cons, if_pos hc]
      cases h : splitChar sep rest with
      | nil => exact absurd h (splitChar_ne_nil sep rest)
      | cons a t =>
        have : joinChar sep ([] :: a :: t) = sep :: joinChar sep (a :: t) := rfl
        rw [this, ← h, ih, hc]
    · rw [splitChar_cons, if_neg hc]
      cases h : splitChar sep rest with
      | nil => exact absurd h (splitChar_ne_nil sep rest)
      | cons a t =>
        cases t with
        | nil =>
          have hj : joinChar sep [a] = a := rfl
          have : rest = a := by rw [← ih, h, hj]
          simp [joinChar, this]
        | cons b t2 =>
          have : joinChar sep ((c :: a) :: b :: t2) =
              (c :: a) ++ sep :: joinChar sep (b :: t2) := rfl
          rw [this]
          have h2 : joinChar sep (a :: b :: t2) = a ++ sep :: joinChar sep (b :: t2) := rfl
          have h3 : rest = a ++ sep :: joinChar sep (b :: t2) := by rw [← ih, h, h2]
          simp [h3]

theorem joinChar_concat (sep : Char) (b : List Char) :
    ∀ as : List (List Char), as ≠ [] →
      joinChar sep (as ++ [b]) = joinChar sep as ++ sep :: b
  | [], h => absurd rfl h
  | [x], _ => rfl
  | x :: y :: ys, _ => by
    have h1 : joinChar sep ((x :: y :: ys) ++ [b]) =
        x ++ sep :: joinChar sep ((y :: ys) ++ [b]) := rfl
    have h2 : joinChar sep (x :: y :: ys) = x ++ sep :: joinChar sep (y :: ys) := rfl
    rw [h1, h2, joinChar_concat sep b (y :: ys) (by simp), List.append_assoc]
    rfl

theorem mem_of_mem_splitChar (sep : Char) :
    ∀ (l : List Char) (cl : List Char), cl ∈ splitChar sep l → ∀ c ∈ cl, c ∈ l := by
  intro l
  induction l with
  | nil =>
    intro cl hcl c hc
    simp [splitChar] at hcl
    subst hcl
    exact absurd hc (by simp)
  | cons d rest ih =>
    intro cl hcl c hc
    by_cases hd : d = sep
    · rw [splitChar_cons, if_pos hd] at hcl
      rcases List.mem_cons.mp hcl with h1 | h1
      · subst h1; exact absurd hc (by simp)
      · exact List.mem_cons_of_mem d (ih cl h1 c hc)
    · have hsplit : splitChar sep (d :: rest) =
          match splitChar sep rest with
          | [] => [[d]]
          | h :: t => (d :: h) :: t := by
        rw [splitChar_cons, if_neg hd]
      cases hr : splitChar sep rest with
      | nil => exact absurd hr (splitChar_ne_nil sep rest)
      | cons a t =>
        rw [hsplit, hr] at hcl
        rcases List.mem_cons.mp hcl with h1 | h1
        · subst h1
          rcases List.mem_cons.mp hc with h2 | h2
          · simp [h2]
          · exact List.mem_cons_of_mem d (ih a (by rw [hr]; simp) c h2)
        · exact List.mem_cons_of_mem d (ih cl (by rw [hr]; simp [h1]) c hc)

theorem eq_or_mem_of_mem_joinChar (sep : Char) :
    ∀ (cs : List (List Char)) (c : Char), c ∈ joinChar sep cs →
      c = sep ∨ ∃ cl ∈ cs, c ∈ cl
  | [], c, h => absurd h (by simp [joinChar])
  | [x], c, h => Or.inr ⟨x, by simp, h⟩
  | x :: y :: ys, c, h => by
    have : joinChar sep (x :: y :: ys) = x ++ sep :: joinChar sep (y :: ys) := rfl
    rw [this] at h
    rcases List.mem_append.mp h with h1 | h1
    · exact Or.inr ⟨x, by simp, h1⟩
    · rcases List.mem_cons.mp h1 with h2 | h2
      · exact Or.inl h2
      · rcases eq_or_mem_of_mem_joinChar sep (y :: ys) c h2 with h3 | ⟨cl, hcl, hc⟩
        · exact Or.inl h3
        · exact Or.inr ⟨cl, by simp [List.mem_cons.mp hcl], hc⟩

theorem getLastD_of_ne_nil {α : Type} (l : List α) (h : l ≠ []) (d1 d2 : α) :
    l.getLastD d1 = l.getLastD d2 := by
  cases l with
  | nil => exact absurd rfl h
  | cons a t => rw [List.getLastD_cons, List.getLastD_cons]

theorem getLastD_splitChar_append (sep : Char) (xs ys : List Char) (hy : sep ∉ ys) :
    (splitChar sep (xs ++ sep :: ys)).getLastD [] = ys := by
  rw [splitChar_append, splitChar_of_not_mem sep ys hy]
  exact List.getLastD_concat _ _ _

theorem dropLast_splitChar_append (sep : Char) (xs ys : List Char) (hy : sep ∉ ys) :
    (splitChar sep (xs ++ sep :: ys)).dropLast = splitChar sep xs := by
  rw [splitChar_append, splitChar_of_not_mem sep ys hy]
  exact List.dropLast_concat

theorem replaceExtFilename_not_mem (name repl : List Char)
    (h : ('/' : Char) ∉ name) (hr : ('/' : Char) ∉ repl) :
    ('/' : Char) ∉ replaceExtFilename name repl := by
  unfold replaceExtFilename
  cases hs : splitChar '.' name with
  | nil => simp
  | cons a t =>
    cases t with
    | nil =>
      intro hmem
      exact h (mem_of_mem_splitChar '.' name a (by rw [hs]; simp) _ hmem)
    | cons b t2 =>
      intro hmem
      rcases eq_or_mem_of_mem_joinChar '.' _ _ hmem with h1 | ⟨cl, hcl, hc⟩
      · exact absurd h1 (by decide)
      · rcases List.mem_append.mp hcl with h2 | h2
        · have : cl ∈ splitChar '.' name := by
            rw [hs]; exact List.dropLast_subset _ h2
          exact h (mem_of_mem_splitChar '.' name cl this _ hc)
        · rw [List.mem_singleton.mp h2] at hc
          exact hr hc

/-! Helper lemmas about the path utilities. -/

theorem parse_name_data (s : String) :
    parse_name s = ⟨(splitChar '/' s.data).getLastD []⟩ := by
  unfold parse_name
  cases h : splitChar '/' s.data with
  | nil => exact absurd h (splitChar_ne_nil _ _)
  | cons a t => rfl

theorem parse_extension_eq (s : String) :
    parse_extension s = extOfFilename ((splitChar '/' s.data).getLastD []) := by
  unfold parse_extension extOfFilename
  cases h : splitChar '/' s.data with
  | nil => exact absurd h (splitChar_ne_nil _ _)
  | cons a t => rfl

theorem replace_extension_eq (s repl : String) :
    (replace_extension s repl).data = joinChar '/'
      ((splitChar '/' s.data).dropLast ++
        [replaceExtFilename ((splitChar '/' s.data).getLastD []) repl.data]) := by
  unfold replace_extension
  cases h : splitChar '/' s.data with
  | nil => exact absurd h (splitChar_ne_nil _ _)
  | cons a t => rfl

theorem getLast?_eq_some_split {α : Type} (l : List α) (x : α) (h : l.getLast? = some x) :
    ∃ pre, l = pre ++ [x] := by
  induction l with
  | nil => simp at h
  | cons a t ih =>
    cases t with
    | nil =>
      simp at h
      exact ⟨[], by simp [h]⟩
    | cons b t2 =>
      rw [List.getLast?_cons_cons] at h
      rcases ih h with ⟨pre, hp⟩
      exact ⟨a :: pre, by simp [hp]⟩

theorem joinRel_nil (name : String) : joinRel "" name = name := by
  unfold joinRel
  by_cases h : name = ""
  · rw [if_pos h, h]
  · rw [if_neg h, if_pos rfl]

theorem joinRel_data (base name : String) (hb : base ≠ "") (hn : name ≠ "") :
    ∃ pre, (joinRel base name).data = pre ++ '/' :: name.data := by
  have hslash : ("/" : String).data = ['/'] := rfl
  unfold joinRel
  rw [if_neg hn, if_neg hb]
  by_cases h : base.data.getLast? = some '/'
  · rw [if_pos h]
    rcases getLast?_eq_some_split _ _ h with ⟨pre, hp⟩
    exact ⟨pre, by rw [String.data_append, hp]; simp⟩
  · rw [if_neg h]
    exact ⟨base.data, by rw [String.data_append, String.data_append, hslash]; simp⟩

theorem parse_name_pathJoin_root (s : String) :
    parse_name (pathJoin "/" s) = parse_name s := by
  have hslash : ("/" : String).data = ['/'] := rfl
  unfold pathJoin
  by_cases h1 : s.data.head? = some '/'
  · rw [if_pos h1]
  · rw [if_neg h1]
    by_cases h2 : s = ""
    · rw [if_pos h2, h2]
      decide
    · rw [if_neg h2, if_pos (show ("/" : String).data.getLast? = some '/' from rfl)]
      rw [parse_name_data, parse_name_data, String.data_append, hslash]
      have hcons : splitChar '/' ('/' :: s.data) = [] :: splitChar '/' s.data := by
        rw [splitChar_cons, if_pos rfl]
      rw [List.singleton_append, hcons, List.getLastD_cons]

theorem parse_name_of_data_append (s : String) (pre X : List Char)
    (hd : s.data = pre ++ '/' :: X) (hX : ('/' : Char) ∉ X) : parse_name s = ⟨X⟩ := by
  rw [parse_name_data, hd, getLastD_splitChar_append _ _ _ hX]

theorem parse_name_of_no_slash (s : String) (h : ('/' : Char) ∉ s.data) :
    parse_name s = s := by
  rw [parse_name_data, splitChar_of_not_mem _ _ h]
  rfl

theorem parse_extension_of_data (s : String) (pre X : List Char)
    (hd : s.data = pre ++ '/' :: X) (hX : ('/' : Char) ∉ X) :
    parse_extension s = extOfFilename X := by
  rw [parse_extension_eq, hd, getLastD_splitChar_append _ _ _ hX]

theorem parse_extension_no_slash (name : String) (h : ('/' : Char) ∉ name.data) :
    parse_extension name = extOfFilename name.data := by
  rw [parse_extension_eq, splitChar_of_not_mem _ _ h]
  rfl

theorem replace_extension_no_slash (name repl : String) (h : ('/' : Char) ∉ name.data) :
    replace_extension name repl = ⟨replaceExtFilename name.data repl.data⟩ := by
  apply String.ext
  rw [replace_extension_eq, splitChar_of_not_mem _ _ h]
  rfl

theorem replace_extension_of_data (s repl : String) (pre X : List Char)
    (hd : s.data = pre ++ '/' :: X) (hX : ('/' : Char) ∉ X) :
    (replace_extension s repl).data = pre ++ '/' :: replaceExtFilename X repl.data := by
  rw [replace_extension_eq, hd, splitChar_append, splitChar_of_not_mem _ _ hX,
    List.dropLast_concat, List.getLastD_concat,
    joinChar_concat '/' _ _ (splitChar_ne_nil _ _), joinChar_splitChar]

theorem parse_name_fuse_path (base name : String) (hn : name ≠ "")
    (h : ('/' : Char) ∉ name.data) :
    parse_name (fuse_path (joinRel base name)) = projectedName name := by
  have hmp3 : ('/' : Char) ∉ ("mp3" : String).data := by decide
  by_cases hb : base = ""
  · subst hb
    rw [joinRel_nil]
    unfold fuse_path projectedName
    rw [parse_extension_no_slash name h]
    by_cases hf : extOfFilename name.data = "flac"
    · rw [if_pos hf, if_pos hf, parse_name_pathJoin_root]
      apply parse_name_of_no_slash
      rw [replace_extension_no_slash name "mp3" h]
      exact replaceExtFilename_not_mem _ _ h hmp3
    · rw [if_neg hf, if_neg hf, parse_name_pathJoin_root]
      exact parse_name_of_no_slash name h
  · rcases joinRel_data base name hb hn with ⟨pre, hd⟩
    unfold fuse_path projectedName
    rw [parse_extension_of_data _ pre name.data hd h, parse_extension_no_slash name h]
    by_cases hf : extOfFilename name.data = "flac"
    · rw [if_pos hf, if_pos hf, parse_name_pathJoin_root]
      have hX : ('/' : Char) ∉ replaceExtFilename name.data ("mp3" : String).data :=
        replaceExtFilename_not_mem _ _ h hmp3
      rw [parse_name_of_data_append _ pre _ (replace_extension_of_data _ "mp3" pre name.data hd h) hX]
      exact (replace_extension_no_slash name "mp3" h).symm
    · rw [if_neg hf, if_neg hf, parse_name_pathJoin_root]
      exact parse_name_of_data_append _ pre name.data hd h

/-! Helper lemmas for the tag translator. -/

theorem rustCharToUppercase_ascii (c : Char) (h : c.toNat ≤ 127) :
    rustCharToUppercase c = [asciiUpperChar c] := by
  unfold rustCharToUppercase asciiUpperChar
  by_cases h1 : 'a' ≤ c ∧ c ≤ 'z'
  · rw [if_pos h1, if_pos h1]
  · have h2 : c ≠ 'ı' := by
      intro e
      rw [e] at h
      exact absurd h (by decide)
    have h3 : c ≠ 'ſ' := by
      intro e
      rw [e] at h
      exact absurd h (by decide)
    rw [if_neg h1, if_neg h1, if_neg h2, if_neg h3]

theorem rustToUppercase_ascii (s : String) (h : ∀ c ∈ s.data, c.toNat ≤ 127) :
    rustToUppercase s = asciiUppercase s := by
  unfold rustToUppercase asciiUppercase
  suffices haux : ∀ l : List Char, (∀ c ∈ l, c.toNat ≤ 127) →
      (l.map rustCharToUppercase).flatten = l.map asciiUpperChar by
    exact congrArg String.mk (haux s.data h)
  intro l
  induction l with
  | nil => intro _; rfl
  | cons c rest ih =>
    intro hl
    rw [List.map_cons, List.flatten_cons,
      rustCharToUppercase_ascii c (hl c (List.mem_cons_self c rest)),
      ih (fun d hd => hl d (List.mem_cons_of_mem c hd)), List.map_cons,
      List.singleton_append]

/-- C7 counterexample: the source compares names after Unicode
uppercasing, so the name `ısrc` (dotless i) yields the `TSRC` frame even
though an ASCII case-insensitive comparison matches it with none of the
ten recognized names. -/
theorem translate_unicode_uppercase_exceeds_ascii :
    translate_vorbis_comment_to_id3 "ısrc" "x" = some ("TSRC", "x") ∧
    specTranslate "ısrc" "x" = none := by
  constructor
  · decide
  · decide

/-- C7 (amended): for every vorbis comment name consisting of ASCII
characters and every value, the translation agrees with the spec table
under ASCII case-insensitive comparison, carrying the value verbatim;
non-ASCII names are uppercased with Unicode semantics instead, which can
match additional names. -/
theorem translate_ascii_case_insensitive (name value : String)
    (h : ∀ c ∈ name.data, c.toNat ≤ 127) :
    translate_vorbis_comment_to_id3 name value = specTranslate name value := by
  unfold translate_vorbis_comment_to_id3 specTranslate
  rw [rustToUppercase_ascii name h]

/-- Witness for the amended C7 theorem at the name `Album` and value `X`. -/
theorem translate_ascii_case_insensitive_witness :
    (∀ c ∈ ("Album" : String).data, c.toNat ≤ 127) ∧
    translate_vorbis_comment_to_id3 "Album" "X" = specTranslate "Album" "X" :=
  ⟨by decide, translate_ascii_case_insensitive "Album" "X" (by decide)⟩

/-! Helper lemmas about the inode table. -/

theorem fresh_new : FreshInodes InodeTable.new := by
  intro i hi
  have h2 : 2 ≤ i := hi
  show (if i = 1 then some "/" else none) = none
  rw [if_neg (by omega : ¬ i = 1)]

theorem coherent_new : Coherent InodeTable.new := by
  constructor
  · intro p e h
    by_cases hp : p = "/"
    · rw [show InodeTable.new.inodes_by_path p = if p = "/" then some ⟨1, 1⟩ else none
        from rfl, if_pos hp] at h
      cases h
      rw [hp]
      rfl
    · rw [show InodeTable.new.inodes_by_path p = if p = "/" then some ⟨1, 1⟩ else none
        from rfl, if_neg hp] at h
      cases h
  · intro i p h
    by_cases hi : i = 1
    · rw [show InodeTable.new.paths_by_inode i = if i = 1 then some "/" else none
        from rfl, if_pos hi] at h
      cases h
      refine ⟨⟨1, 1⟩, ?_, ?_⟩
      · rfl
      · exact hi.symm
    · rw [show InodeTable.new.paths_by_inode i = if i = 1 then some "/" else none
        from rfl, if_neg hi] at h
      cases h

theorem inode_of_entry (t : InodeTable) (hC : Coherent t) (i0 : Nat) (path : String)
    (e : InodeTableEntry) (hp : t.paths_by_inode i0 = some path)
    (hq : t.inodes_by_path path = some e) : e.inode = i0 := by
  rcases hC.2 i0 path hp with ⟨e2, he2, hi⟩
  rw [hq] at he2
  cases he2
  exact hi

theorem add_or_get_preserves (t : InodeTable) (parent : Nat) (name : String)
    (hC : Coherent t) (hF : FreshInodes t) (hU : t.next_inode + 1 < U64) :
    ∀ r t2, t.add_or_get parent name = some (r, t2) →
      Coherent t2 ∧ FreshInodes t2 := by
  intro r t2 h
  unfold InodeTable.add_or_get at h
  cases hp : t.paths_by_inode parent with
  | none => rw [hp] at h; cases h
  | some parentPath =>
    rw [hp] at h
    simp only at h
    cases hq : t.inodes_by_path (pathJoin parentPath name) with
    | some e =>
      rw [hq] at h
      simp only [Option.some.injEq, Prod.mk.injEq] at h
      obtain ⟨-, ht⟩ := h
      subst ht
      exact ⟨hC, hF⟩
    | none =>
      rw [hq] at h
      simp only [Option.some.injEq, Prod.mk.injEq] at h
      obtain ⟨-, ht⟩ := h
      subst ht
      refine ⟨⟨?_, ?_⟩, ?_⟩
      · intro p' e' h'
        by_cases hpp : p' = pathJoin parentPath name
        · rw [show (if p' = pathJoin parentPath name then some ⟨t.next_inode, 0⟩
              else t.inodes_by_path p') = some e' ↔ _ from Iff.rfl, if_pos hpp] at h'
          cases h'
          show (if t.next_inode = t.next_inode then some (pathJoin parentPath name)
            else t.paths_by_inode t.next_inode) = some p'
          rw [if_pos rfl, hpp]
        · rw [show (if p' = pathJoin parentPath name then some ⟨t.next_inode, 0⟩
              else t.inodes_by_path p') = some e' ↔ _ from Iff.rfl, if_neg hpp] at h'
          have h1 := hC.1 p' e' h'
          have hne : e'.inode ≠ t.next_inode := by
            intro he
            rw [he, hF t.next_inode (le_refl _)] at h1
            cases h1
          show (if e'.inode = t.next_inode then some (pathJoin parentPath name)
            else t.paths_by_inode e'.inode) = some p'
          rw [if_neg hne]
          exact h1
      · intro i p' h'
        by_cases hii : i = t.next_inode
        · rw [show (if i = t.next_inode then some (pathJoin parentPath name)
              else t.paths_by_inode i) = some p' ↔ _ from Iff.rfl, if_pos hii] at h'
          have hps : pathJoin parentPath name = p' := Option.some.inj h'
          subst hps
          refine ⟨⟨t.next_inode, 0⟩, ?_, hii.symm⟩
          show (if pathJoin parentPath name = pathJoin parentPath name
            then some ⟨t.next_inode, 0⟩
            else t.inodes_by_path (pathJoin parentPath name)) = some ⟨t.next_inode, 0⟩
          rw [if_pos rfl]
        · rw [show (if i = t.next_inode then some (pathJoin parentPath name)
              else t.paths_by_inode i) = some p' ↔ _ from Iff.rfl, if_neg hii] at h'
          rcases hC.2 i p' h' with ⟨e2, he2, hi2⟩
          have hpp : p' ≠ pathJoin parentPath name := by
            intro he
            rw [he, hq] at he2
            cases he2
          refine ⟨e2, ?_, hi2⟩
          show (if p' = pathJoin parentPath name then some ⟨t.next_inode, 0⟩
            else t.inodes_by_path p') = some e2
          rw [if_neg hpp]
          exact he2
      · intro i hi
        have hi0 : (t.next_inode + 1) % U64 ≤ i := hi
        rw [Nat.mod_eq_of_lt hU] at hi0
        show (if i = t.next_inode then some (pathJoin parentPath name)
          else t.paths_by_inode i) = none
        have hii : i ≠ t.next_inode := by omega
        rw [if_neg hii]
        exact hF i (by omega)

theorem lookup_preserves (t : InodeTable) (i0 : Nat)
    (hC : Coherent t) (hF : FreshInodes t) :
    ∀ n t2, t.lookup i0 = some (n, t2) → Coherent t2 ∧ FreshInodes t2 := by
  intro n t2 h
  unfold InodeTable.lookup at h
  cases hp : t.paths_by_inode i0 with
  | none => rw [hp] at h; cases h
  | some path =>
    rw [hp] at h
    simp only at h
    cases hq : t.inodes_by_path path with
    | none => rw [hq] at h; cases h
    | some e =>
      rw [hq] at h
      simp only [Option.some.injEq, Prod.mk.injEq] at h
      obtain ⟨-, ht⟩ := h
      subst ht
      refine ⟨⟨?_, ?_⟩, hF⟩
      · intro p' e' h'
        by_cases hpp : p' = path
        · rw [show (if p' = path then some ⟨e.inode, e.lookups + 1⟩
              else t.inodes_by_path p') = some e' ↔ _ from Iff.rfl, if_pos hpp] at h'
          cases h'
          show t.paths_by_inode e.inode = some p'
          rw [hpp]
          exact hC.1 path e hq
        · rw [show (if p' = path then some ⟨e.inode, e.lookups + 1⟩
              else t.inodes_by_path p') = some e' ↔ _ from Iff.rfl, if_neg hpp] at h'
          exact hC.1 p' e' h'
      · intro i p' h'
        rcases hC.2 i p' h' with ⟨e2, he2, hi2⟩
        by_cases hpp : p' = path
        · refine ⟨⟨e.inode, e.lookups + 1⟩, ?_, ?_⟩
          · show (if p' = path then some ⟨e.inode, e.lookups + 1⟩
              else t.inodes_by_path p') = _
            rw [if_pos hpp]
          · rw [hpp, hq] at he2
            cases he2
            exact hi2
        · refine ⟨e2, ?_, hi2⟩
          show (if p' = path then some ⟨e.inode, e.lookups + 1⟩
            else t.inodes_by_path p') = some e2
          rw [if_neg hpp]
          exact he2

theorem forget_preserves (t : InodeTable) (i0 n : Nat)
    (hC : Coherent t) (hF : FreshInodes t) :
    Coherent (t.forget i0 n) ∧ FreshInodes (t.forget i0 n) := by
  unfold InodeTable.forget
  by_cases h1 : i0 = 1
  · rw [if_pos h1]; exact ⟨hC, hF⟩
  · rw [if_neg h1]
    cases hp : t.paths_by_inode i0 with
    | none => exact ⟨hC, hF⟩
    | some path =>
      simp only
      cases hq : t.inodes_by_path path with
      | none => exact ⟨hC, hF⟩
      | some e =>
        have hei : e.inode = i0 := inode_of_entry t hC i0 path e hp hq
        simp only
        by_cases hz : sub64 e.lookups n = 0
        · rw [if_pos hz]
          refine ⟨⟨?_, ?_⟩, ?_⟩
          · intro p' e' h'
            by_cases hpp : p' = path
            · rw [show (if p' = path then none else t.inodes_by_path p') = some e' ↔ _
                from Iff.rfl, if_pos hpp] at h'
              cases h'
            · rw [show (if p' = path then none else t.inodes_by_path p') = some e' ↔ _
                from Iff.rfl, if_neg hpp] at h'
              have h2 := hC.1 p' e' h'
              have hne : e'.inode ≠ i0 := by
                intro he
                rw [he, hp] at h2
                cases h2
                exact hpp rfl
              show (if e'.inode = i0 then none else t.paths_by_inode e'.inode) = some p'
              rw [if_neg hne]
              exact h2
          · intro i p' h'
            by_cases hii : i = i0
            · rw [show (if i = i0 then none else t.paths_by_inode i) = some p' ↔ _
                from Iff.rfl, if_pos hii] at h'
              cases h'
            · rw [show (if i = i0 then none else t.paths_by_inode i) = some p' ↔ _
                from Iff.rfl, if_neg hii] at h'
              rcases hC.2 i p' h' with ⟨e2, he2, hi2⟩
              have hpp : p' ≠ path := by
                intro he
                rw [he, hq] at he2
                cases he2
                exact hii (by rw [← hi2, hei])
              refine ⟨e2, ?_, hi2⟩
              show (if p' = path then none else t.inodes_by_path p') = some e2
              rw [if_neg hpp]
              exact he2
          · intro i hi
            by_cases hii : i = i0
            · show (if i = i0 then none else t.paths_by_inode i) = none
              rw [if_pos hii]
            · show (if i = i0 then none else t.paths_by_inode i) = none
              rw [if_neg hii]
              exact hF i hi
        · rw [if_neg hz]
          refine ⟨⟨?_, ?_⟩, hF⟩
          · intro p' e' h'
            by_cases hpp : p' = path
            · rw [show (if p' = path then some ⟨e.inode, sub64 e.lookups n⟩
                  else t.inodes_by_path p') = some e' ↔ _ from Iff.rfl, if_pos hpp] at h'
              cases h'
              show t.paths_by_inode e.inode = some p'
              rw [hpp]
              exact hC.1 path e hq
            · rw [show (if p' = path then some ⟨e.inode, sub64 e.lookups n⟩
                  else t.inodes_by_path p') = some e' ↔ _ from Iff.rfl, if_neg hpp] at h'
              exact hC.1 p' e' h'
          · intro i p' h'
            rcases hC.2 i p' h' with ⟨e2, he2, hi2⟩
            by_cases hpp : p' = path
            · refine ⟨⟨e.inode, sub64 e.lookups n⟩, ?_, ?_⟩
              · show (if p' = path then some ⟨e.inode, sub64 e.lookups n⟩
                  else t.inodes_by_path p') = _
                rw [if_pos hpp]
              · rw [hpp, hq] at he2
                cases he2
                exact hi2
            · refine ⟨e2, ?_, hi2⟩
              show (if p' = path then some ⟨e.inode, sub64 e.lookups n⟩
                else t.inodes_by_path p') = some e2
              rw [if_neg hpp]
              exact he2

theorem add_or_get_next (t : InodeTable) (parent : Nat) (name : String) :
    ∀ r t2, t.add_or_get parent name = some (r, t2) →
      t2.next_inode ≤ t.next_inode + 1 := by
  intro r t2 h
  unfold InodeTable.add_or_get at h
  cases hp : t.paths_by_inode parent with
  | none => rw [hp] at h; cases h
  | some parentPath =>
    rw [hp] at h
    simp only at h
    cases hq : t.inodes_by_path (pathJoin parentPath name) with
    | some e =>
      rw [hq] at h
      simp only [Option.some.injEq, Prod.mk.injEq] at h
      obtain ⟨-, ht⟩ := h
      subst ht
      omega
    | none =>
      rw [hq] at h
      simp only [Option.some.injEq, Prod.mk.injEq] at h
      obtain ⟨-, ht⟩ := h
      subst ht
      show (t.next_inode + 1) % U64 ≤ t.next_inode + 1
      exact Nat.mod_le _ _

theorem lookup_next (t : InodeTable) (i0 : Nat) :
    ∀ n t2, t.lookup i0 = some (n, t2) → t2.next_inode = t.next_inode := by
  intro n t2 h
  unfold InodeTable.lookup at h
  cases hp : t.paths_by_inode i0 with
  | none => rw [hp] at h; cases h
  | some path =>
    rw [hp] at h
    simp only at h
    cases hq : t.inodes_by_path path with
    | none => rw [hq] at h; cases h
    | some e =>
      rw [hq] at h
      simp only [Option.some.injEq, Prod.mk.injEq] at h
      obtain ⟨-, ht⟩ := h
      subst ht
      rfl

theorem forget_next (t : InodeTable) (i0 n : Nat) :
    (t.forget i0 n).next_inode = t.next_inode := by
  unfold InodeTable.forget
  by_cases h1 : i0 = 1
  · rw [if_pos h1]
  · rw [if_neg h1]
    cases hp : t.paths_by_inode i0 with
    | none => rfl
    | some path =>
      simp only
      cases hq : t.inodes_by_path path with
      | none => rfl
      | some e =>
        simp only
        by_cases hz : sub64 e.lookups n = 0
        · rw [if_pos hz]
        · rw [if_neg hz]

theorem applyTableOp_preserves (t : InodeTable) (op : TableOp)
    (hC : Coherent t) (hF : FreshInodes t) (hU : t.next_inode + 1 < U64) :
    Coherent (applyTableOp t op) ∧ FreshInodes (applyTableOp t op) := by
  cases op with
  | addOrGetOp p n =>
    cases h : t.add_or_get p n with
    | none =>
      have he : applyTableOp t (TableOp.addOrGetOp p n) = t := by
        simp only [applyTableOp]
        rw [h]
      rw [he]
      exact ⟨hC, hF⟩
    | some rt =>
      obtain ⟨r1, t2⟩ := rt
      have he : applyTableOp t (TableOp.addOrGetOp p n) = t2 := by
        simp only [applyTableOp]
        rw [h]
      rw [he]
      exact add_or_get_preserves t p n hC hF hU r1 t2 h
  | lookupOp i =>
    cases h : t.lookup i with
    | none =>
      have he : applyTableOp t (TableOp.lookupOp i) = t := by
        simp only [applyTableOp]
        rw [h]
      rw [he]
      exact ⟨hC, hF⟩
    | some rt =>
      obtain ⟨r1, t2⟩ := rt
      have he : applyTableOp t (TableOp.lookupOp i) = t2 := by
        simp only [applyTableOp]
        rw [h]
      rw [he]
      exact lookup_preserves t i hC hF r1 t2 h
  | forgetOp i n =>
    exact forget_preserves t i n hC hF

theorem applyTableOp_next (t : InodeTable) (op : TableOp) :
    (applyTableOp t op).next_inode ≤ t.next_inode + 1 := by
  cases op with
  | addOrGetOp p n =>
    cases h : t.add_or_get p n with
    | none =>
      have he : applyTableOp t (TableOp.addOrGetOp p n) = t := by
        simp only [applyTableOp]
        rw [h]
      rw [he]
      omega
    | some rt =>
      obtain ⟨r1, t2⟩ := rt
      have he : applyTableOp t (TableOp.addOrGetOp p n) = t2 := by
        simp only [applyTableOp]
        rw [h]
      rw [he]
      exact add_or_get_next t p n r1 t2 h
  | lookupOp i =>
    cases h : t.lookup i with
    | none =>
      have he : applyTableOp t (TableOp.lookupOp i) = t := by
        simp only [applyTableOp]
        rw [h]
      rw [he]
      omega
    | some rt =>
      obtain ⟨r1, t2⟩ := rt
      have he : applyTableOp t (TableOp.lookupOp i) = t2 := by
        simp only [applyTableOp]
        rw [h]
      rw [he, lookup_next t i r1 t2 h]
      omega
  | forgetOp i n =>
    rw [show applyTableOp t (TableOp.forgetOp i n) = t.forget i n from rfl, forget_next]
    omega

theorem runTableOps_coherent_aux :
    ∀ (l : List TableOp) (t : InodeTable), Coherent t → FreshInodes t →
      t.next_inode + l.length < U64 →
      Coherent (l.foldl applyTableOp t) ∧ FreshInodes (l.foldl applyTableOp t) := by
  intro l
  induction l with
  | nil => intro t hC hF _; exact ⟨hC, hF⟩
  | cons op rest ih =>
    intro t hC hF hlen
    rw [List.foldl_cons]
    have hU : t.next_inode + 1 < U64 := by
      simp only [List.length_cons] at hlen
      omega
    rcases applyTableOp_preserves t op hC hF hU with ⟨hc2, hf2⟩
    refine ih _ hc2 hf2 ?_
    have h3 := applyTableOp_next t op
    simp only [List.length_cons] at hlen
    omega

/-! Helper lemmas about the pairwise distinct names of the
counter-wrapping operation sequence. -/

theorem wrapName_ne_empty (k : Nat) : wrapName k ≠ "" := by
  intro h
  have hd : List.replicate (k + 1) 'a' = ([] : List Char) := congrArg String.data h
  simp at hd

theorem wrapPath_eq (k : Nat) : wrapPath k = "/" ++ wrapName k := by
  unfold wrapPath pathJoin
  have hhead : (wrapName k).data.head? = some 'a' := rfl
  rw [if_neg (fun h => by
      rw [hhead] at h
      exact absurd (Option.some.inj h) (by decide)),
    if_neg (wrapName_ne_empty k),
    if_pos (show ("/" : String).data.getLast? = some '/' from rfl)]

theorem wrapPath_data (k : Nat) :
    (wrapPath k).data = '/' :: List.replicate (k + 1) 'a' := by
  rw [wrapPath_eq, String.data_append]
  rfl

theorem wrapPath_injective (i j : Nat) (h : wrapPath i = wrapPath j) : i = j := by
  have hd := congrArg String.data h
  rw [wrapPath_data, wrapPath_data] at hd
  have hlen := congrArg List.length hd
  simp [List.length_replicate] at hlen
  omega

theorem wrapPath_ne_root (k : Nat) : wrapPath k ≠ "/" := by
  intro h
  have hd := congrArg String.data h
  rw [wrapPath_data, show ("/" : String).data = ['/'] from rfl] at hd
  injection hd with h1 h2
  simp at h2

theorem wrapOps_step (n : Nat)
    (h3 : (runTableOps (wrapOps n)).paths_by_inode 1 = some "/")
    (h2 : (runTableOps (wrapOps n)).inodes_by_path (wrapPath n) = none) :
    runTableOps (wrapOps (n + 1)) =
      { inodes_by_path := fun p => if p = wrapPath n
          then some ⟨(runTableOps (wrapOps n)).next_inode, 0⟩
          else (runTableOps (wrapOps n)).inodes_by_path p,
        paths_by_inode := fun i => if i = (runTableOps (wrapOps n)).next_inode
          then some (wrapPath n) else (runTableOps (wrapOps n)).paths_by_inode i,
        next_inode := ((runTableOps (wrapOps n)).next_inode + 1) % U64 } := by
  have hsplit : wrapOps (n + 1) = wrapOps n ++ [TableOp.addOrGetOp 1 (wrapName n)] := by
    unfold wrapOps
    rw [List.range_succ, List.map_append]
    rfl
  have hrun : runTableOps (wrapOps (n + 1)) =
      applyTableOp (runTableOps (wrapOps n)) (TableOp.addOrGetOp 1 (wrapName n)) := by
    unfold runTableOps
    rw [hsplit, List.foldl_append]
    rfl
  have hao : (runTableOps (wrapOps n)).add_or_get 1 (wrapName n) =
      some (((runTableOps (wrapOps n)).next_inode, wrapPath n),
        { inodes_by_path := fun p => if p = wrapPath n
            then some ⟨(runTableOps (wrapOps n)).next_inode, 0⟩
            else (runTableOps (wrapOps n)).inodes_by_path p,
          paths_by_inode := fun i => if i = (runTableOps (wrapOps n)).next_inode
            then some (wrapPath n) else (runTableOps (wrapOps n)).paths_by_inode i,
          next_inode := ((runTableOps (wrapOps n)).next_inode + 1) % U64 }) := by
    unfold InodeTable.add_or_get
    rw [h3]
    simp only
    rw [show pathJoin "/" (wrapName n) = wrapPath n from rfl, h2]
  rw [hrun]
  simp only [applyTableOp]
  rw [hao]

theorem wrapOps_state : ∀ n : Nat, n + 1 ≤ U64 →
    (runTableOps (wrapOps n)).inodes_by_path "/" = some ⟨1, 1⟩ ∧
    (∀ i, n ≤ i → (runTableOps (wrapOps n)).inodes_by_path (wrapPath i) = none) ∧
    (runTableOps (wrapOps n)).paths_by_inode 1 = some "/" ∧
    (runTableOps (wrapOps n)).next_inode = (2 + n) % U64 := by
  intro n
  induction n with
  | zero =>
    intro _
    refine ⟨by decide, ?_, by decide, by decide⟩
    intro i _
    show (if wrapPath i = "/" then some (⟨1, 1⟩ : InodeTableEntry) else none) = none
    rw [if_neg (wrapPath_ne_root i)]
  | succ n ih =>
    intro hn1
    obtain ⟨i1, i2, i3, i4⟩ := ih (by omega)
    rw [wrapOps_step n i3 (i2 n (le_refl n))]
    refine ⟨?_, ?_, ?_, ?_⟩
    · show (if "/" = wrapPath n
        then some (⟨(runTableOps (wrapOps n)).next_inode, 0⟩ : InodeTableEntry)
        else (runTableOps (wrapOps n)).inodes_by_path "/") = some ⟨1, 1⟩
      rw [if_neg (fun h => wrapPath_ne_root n h.symm)]
      exact i1
    · intro i hi
      show (if wrapPath i = wrapPath n
        then some (⟨(runTableOps (wrapOps n)).next_inode, 0⟩ : InodeTableEntry)
        else (runTableOps (wrapOps n)).inodes_by_path (wrapPath i)) = none
      rw [if_neg (fun h => by have := wrapPath_injective i n h; omega)]
      exact i2 i (by omega)
    · show (if 1 = (runTableOps (wrapOps n)).next_inode then some (wrapPath n)
        else (runTableOps (wrapOps n)).paths_by_inode 1) = some "/"
      have hne : ¬ (1 = (runTableOps (wrapOps n)).next_inode) := by
        rw [i4]
        intro h
        by_cases hc : 2 + n < U64
        · rw [Nat.mod_eq_of_lt hc] at h
          omega
        · have he : 2 + n = U64 := by omega
          rw [he, Nat.mod_self] at h
          omega
      rw [if_neg hne]
      exact i3
    · show ((runTableOps (wrapOps n)).next_inode + 1) % U64 = (2 + (n + 1)) % U64
      rw [i4, Nat.mod_add_mod]
      have he : 2 + n + 1 = 2 + (n + 1) := by omega
      rw [he]

theorem wrap_last_step (n : Nat) (hn : n + 1 ≤ U64) (hone : (2 + n) % U64 = 1) :
    ¬ Coherent (runTableOps (wrapOps (n + 1))) := by
  obtain ⟨i1, i2, i3, i4⟩ := wrapOps_state n hn
  rw [wrapOps_step n i3 (i2 n (le_refl n))]
  intro hcoh
  have hnext1 : (runTableOps (wrapOps n)).next_inode = 1 := by
    rw [i4]
    exact hone
  have hroot : (if "/" = wrapPath n
      then some (⟨(runTableOps (wrapOps n)).next_inode, 0⟩ : InodeTableEntry)
      else (runTableOps (wrapOps n)).inodes_by_path "/") = some ⟨1, 1⟩ := by
    rw [if_neg (fun h => wrapPath_ne_root n h.symm)]
    exact i1
  have h1 := hcoh.1 "/" ⟨1, 1⟩ hroot
  have h2 : (if 1 = (runTableOps (wrapOps n)).next_inode then some (wrapPath n)
      else (runTableOps (wrapOps n)).paths_by_inode 1) = some "/" := h1
  rw [if_pos hnext1.symm] at h2
  exact wrapPath_ne_root n (Option.some.inj h2)

/-- C8 counterexample: under the faithful wrapping increment of the u64
allocation counter, the sequence of `2^64` fresh `add_or_get` insertions
under the root (pairwise distinct names) wraps the counter, and its last
step reassigns inode 1 to a new path while `inodes_by_path` still maps
`"/"` to inode 1, so the reachable table is no longer coherent. -/
theorem inode_counter_wrap_breaks_coherence :
    ¬ Coherent (runTableOps (wrapOps U64)) := by
  have hpos : 0 < U64 := by decide
  have hone : (2 + (U64 - 1)) % U64 = 1 := by
    have h2 : 2 + (U64 - 1) = U64 + 1 := by omega
    rw [h2, Nat.add_mod_left]
    exact Nat.mod_eq_of_lt (by decide)
  have hlast := wrap_last_step (U64 - 1) (by omega) hone
  rw [show U64 - 1 + 1 = U64 from by omega] at hlast
  exact hlast

/-- C8 (amended): every inode table reachable from the freshly
constructed table by a sequence of fewer than `2^64 - 2` operations —
before the wrapping 64-bit allocation counter can reassign an in-use
inode — keeps the two mappings mutually coherent, and the root entry
`("/", inode 1)` is present at construction. -/
theorem inode_table_coherent_before_wrap :
    (InodeTable.new.inodes_by_path "/" = some ⟨1, 1⟩ ∧
      InodeTable.new.paths_by_inode 1 = some "/") ∧
    ∀ ops : List TableOp, 2 + ops.length < U64 → Coherent (runTableOps ops) :=
  ⟨⟨by decide, by decide⟩, fun ops h =>
    (runTableOps_coherent_aux ops InodeTable.new coherent_new fresh_new h).1⟩

/-- Witness for the amended C8 theorem on a one-operation sequence. -/
theorem inode_table_coherent_before_wrap_witness :
    2 + ([TableOp.addOrGetOp 1 "a"] : List TableOp).length < U64 ∧
    Coherent (runTableOps [TableOp.addOrGetOp 1 "a"]) :=
  ⟨by decide,
    inode_table_coherent_before_wrap.2 [TableOp.addOrGetOp 1 "a"] (by decide)⟩

/-- C9: when `(parent, name)` already has an inode, `add_or_get` returns
the same inode and path and leaves the table unchanged; equivalently,
running `add_or_get` a second time with the same arguments on the
resulting table returns the identical result and table. -/
theorem add_or_get_idempotent (t : InodeTable) (hF : FreshInodes t)
    (parent : Nat) (name : String) :
    (t.add_or_get parent name).bind (fun r => r.2.add_or_get parent name) =
      t.add_or_get parent name := by
  cases hp : t.paths_by_inode parent with
  | none =>
    have h1 : t.add_or_get parent name = none := by
      unfold InodeTable.add_or_get
      rw [hp]
    rw [h1]
    rfl
  | some parentPath =>
    cases hq : t.inodes_by_path (pathJoin parentPath name) with
    | some e =>
      have h1 : t.add_or_get parent name = some ((e.inode, pathJoin parentPath name), t) := by
        unfold InodeTable.add_or_get
        rw [hp]
        simp only
        rw [hq]
      rw [h1]
      show t.add_or_get parent name = some ((e.inode, pathJoin parentPath name), t)
      exact h1
    | none =>
      have hne : ¬ parent = t.next_inode := by
        intro he
        rw [hF parent (by omega)] at hp
        cases hp
      have h1 : t.add_or_get parent name = some ((t.next_inode, pathJoin parentPath name),
          { inodes_by_path := fun p => if p = pathJoin parentPath name
              then some ⟨t.next_inode, 0⟩ else t.inodes_by_path p,
            paths_by_inode := fun i => if i = t.next_inode
              then some (pathJoin parentPath name) else t.paths_by_inode i,
            next_inode := (t.next_inode + 1) % U64 }) := by
        unfold InodeTable.add_or_get
        rw [hp]
        simp only
        rw [hq]
      rw [h1]
      show InodeTable.add_or_get
          { inodes_by_path := fun p => if p = pathJoin parentPath name
              then some ⟨t.next_inode, 0⟩ else t.inodes_by_path p,
            paths_by_inode := fun i => if i = t.next_inode
              then some (pathJoin parentPath name) else t.paths_by_inode i,
            next_inode := (t.next_inode + 1) % U64 } parent name = _
      unfold InodeTable.add_or_get
      simp only
      rw [if_neg hne, hp]
      simp

/-- Witness for the C9 theorem: repeating `add_or_get 1 "a"` on the fresh
table. -/
theorem add_or_get_idempotent_witness :
    FreshInodes InodeTable.new ∧
    ((InodeTable.new.add_or_get 1 "a").bind (fun r => r.2.add_or_get 1 "a") =
      InodeTable.new.add_or_get 1 "a") :=
  ⟨fresh_new, add_or_get_idempotent InodeTable.new fresh_new 1 "a"⟩

theorem sub64_spec (a b : Nat) (ha : a < U64) (hb : b < U64) :
    sub64 a b = if b ≤ a then a - b else a + (U64 - b) := by
  unfold sub64
  rw [Nat.mod_eq_of_lt hb]
  by_cases h : b ≤ a
  · rw [if_pos h]
    have h2 : a + (U64 - b) = U64 + (a - b) := by omega
    rw [h2, Nat.add_mod_left]
    exact Nat.mod_eq_of_lt (by omega)
  · rw [if_neg h]
    exact Nat.mod_eq_of_lt (by omega)

/-- C10: `forget` on a present inode other than 1 performs the unguarded
wrapping 64-bit subtraction of `n` from the lookup count: when `n`
exceeds the count the subtraction underflows to a huge nonzero value (no
clamping to zero, so the entry survives), and when `n` is at most the
count the subtraction is exact and the entry is evicted from both
mappings exactly when the count reaches zero. -/
theorem forget_unguarded_subtraction (t : InodeTable) (i0 n : Nat) (path : String)
    (e : InodeTableEntry)
    (h1 : i0 ≠ 1) (h2 : t.paths_by_inode i0 = some path)
    (h3 : t.inodes_by_path path = some e)
    (h4 : e.lookups < U64) (h5 : n < U64) :
    (e.lookups < n →
      (t.forget i0 n).inodes_by_path path = some ⟨e.inode, e.lookups + (U64 - n)⟩ ∧
      e.lookups + (U64 - n) ≠ 0) ∧
    (n ≤ e.lookups →
      (t.forget i0 n).inodes_by_path path =
        (if e.lookups = n then none else some ⟨e.inode, e.lookups - n⟩) ∧
      (t.forget i0 n).paths_by_inode i0 =
        (if e.lookups = n then none else some path)) := by
  constructor
  · intro hlt
    have hs : sub64 e.lookups n = e.lookups + (U64 - n) := by
      rw [sub64_spec _ _ h4 h5, if_neg (by omega)]
    have hnz : e.lookups + (U64 - n) ≠ 0 := by omega
    constructor
    · unfold InodeTable.forget
      rw [if_neg h1, h2]
      simp only
      rw [h3]
      simp only
      rw [if_neg (by rw [hs]; exact hnz)]
      simp [hs]
    · exact hnz
  · intro hle
    have hs : sub64 e.lookups n = e.lookups - n := by
      rw [sub64_spec _ _ h4 h5, if_pos hle]
    by_cases hz : e.lookups = n
    · have hz0 : sub64 e.lookups n = 0 := by rw [hs]; omega
      constructor
      · unfold InodeTable.forget
        rw [if_neg h1, h2]
        simp only
        rw [h3]
        simp only
        rw [if_pos hz0, if_pos hz]
        simp
      · unfold InodeTable.forget
        rw [if_neg h1, h2]
        simp only
        rw [h3]
        simp only
        rw [if_pos hz0, if_pos hz]
        simp
    · have hz0 : ¬ sub64 e.lookups n = 0 := by rw [hs]; omega
      constructor
      · unfold InodeTable.forget
        rw [if_neg h1, h2]
        simp only
        rw [h3]
        simp only
        rw [if_neg hz0, if_neg hz]
        simp [hs]
      · unfold InodeTable.forget
        rw [if_neg h1, h2]
        simp only
        rw [h3]
        simp only
        rw [if_neg hz0, if_neg hz]
        simp [h2]

/-! Helper lemmas about the encode loop. -/

theorem encodeLoop_last_zero {σ : Type} (impl : EncodeImpl σ) (n : Nat) :
    ∀ (fuel : Nat) (s sl : σ), encodeLoop impl fuel s n = some sl →
      ∃ sp, impl.encode sp n = (0, sl) := by
  intro fuel
  induction fuel with
  | zero => intro s sl h; cases h
  | succ fuel ih =>
    intro s sl h
    unfold encodeLoop at h
    cases he : impl.encode s n with
    | mk p s2 =>
      rw [he] at h
      simp only at h
      by_cases hp : 0 < p
      · rw [if_pos hp] at h
        exact ih s2 sl h
      · rw [if_neg hp] at h
        have hp0 : p = 0 := by omega
        have h2 : s2 = sl := Option.some.inj h
        subst h2
        exact ⟨s, by rw [he, hp0]⟩

/-- C2 (amended): `read(n)` drives the encoding to completion whenever it
is unfinished — running encode steps until one produces zero bytes and
then finalizing, regardless of how many bytes the buffer already holds —
and then returns up to `n` bytes from the front of the output buffer.
The hypotheses are the contract of the trait implementor: finalizing
marks the encoding finished and replacing the buffer changes nothing
else. -/
theorem encode_read_drains_then_serves {σ : Type} (impl : EncodeImpl σ)
    (hfin : ∀ s, impl.get_encoding_finished ((impl.encode_finalize s).2) = true)
    (hsetFin : ∀ s b, impl.get_encoding_finished (impl.set_output_buffer s b) =
      impl.get_encoding_finished s)
    (hsetBuf : ∀ s b, impl.get_output_buffer (impl.set_output_buffer s b) = b)
    (fuel n : Nat) (s : σ) (c : List Nat) (s2 : σ)
    (h : Encode.read impl fuel s n = some (c, s2)) :
    impl.get_encoding_finished s2 = true ∧
    ∃ s1, c = (impl.get_output_buffer s1).take n ∧
      impl.get_output_buffer s2 = (impl.get_output_buffer s1).drop n ∧
      c ++ impl.get_output_buffer s2 = impl.get_output_buffer s1 ∧
      (impl.get_encoding_finished s = true → s1 = s) ∧
      (impl.get_encoding_finished s = false →
        ∃ sp sm, impl.encode sp n = (0, sm) ∧ s1 = (impl.encode_finalize sm).2) := by
  unfold Encode.read at h
  by_cases hf : impl.get_encoding_finished s = true
  · rw [if_pos hf] at h
    simp only [Option.some.injEq, Prod.mk.injEq] at h
    obtain ⟨hc, hs2⟩ := h
    subst hc
    subst hs2
    refine ⟨by rw [hsetFin]; exact hf, s, rfl, by rw [hsetBuf], ?_, fun _ => rfl, ?_⟩
    · rw [hsetBuf]
      exact List.take_append_drop n _
    · intro hcontr
      rw [hf] at hcontr
      cases hcontr
  · rw [if_neg hf] at h
    cases hloop : encodeLoop impl fuel s n with
    | none => rw [hloop] at h; cases h
    | some sl =>
      rw [hloop] at h
      simp only [Option.some.injEq, Prod.mk.injEq] at h
      obtain ⟨hc, hs2⟩ := h
      subst hc
      subst hs2
      rcases encodeLoop_last_zero impl n fuel s sl hloop with ⟨sp, hsp⟩
      refine ⟨by rw [hsetFin]; exact hfin sl, (impl.encode_finalize sl).2, rfl,
        by rw [hsetBuf], ?_, ?_, fun _ => ⟨sp, sl, hsp, rfl⟩⟩
      · rw [hsetBuf]
        exact List.take_append_drop n _
      · intro hcontr
        rw [hcontr] at hf
        exact absurd rfl hf

/-- C2 counterexample: on a session holding two buffered bytes and one
pending chunk, a request for one byte makes `Encode::read` encode the
whole pending stream and finalize, while the spec loop, whose guard
requires the buffer to hold fewer than `n` bytes, does not run a single
encode step; the two disagree. -/
theorem encode_read_not_lazy :
    Encode.read testEncImpl 10 sC2 1 ≠ specRead testEncImpl 10 sC2 1 := by
  decide

/-- Witness for the amended C2 theorem on the concrete session `sC2`. -/
theorem encode_read_drains_then_serves_witness :
    Encode.read testEncImpl 10 sC2 1 = some ([9], sC2done) ∧
    (testEncImpl.get_encoding_finished sC2done = true ∧
      ∃ s1, [9] = (testEncImpl.get_output_buffer s1).take 1 ∧
        testEncImpl.get_output_buffer sC2done = (testEncImpl.get_output_buffer s1).drop 1 ∧
        [9] ++ testEncImpl.get_output_buffer sC2done = testEncImpl.get_output_buffer s1 ∧
        (testEncImpl.get_encoding_finished sC2 = true → s1 = sC2) ∧
        (testEncImpl.get_encoding_finished sC2 = false →
          ∃ sp sm, testEncImpl.encode sp 1 = (0, sm) ∧
            s1 = (testEncImpl.encode_finalize sm).2)) :=
  ⟨by decide, encode_read_drains_then_serves testEncImpl
    (fun _ => rfl) (fun _ _ => rfl) (fun _ _ => rfl) 10 1 sC2 [9] sC2done (by decide)⟩

/-- C3: `stat` reports twice the backing size for every file — here a
100-byte regular text file is reported as 200 bytes — instead of the
encoder size bound for FLAC-served files and the real size otherwise
(the source line is `size: metadata.size() * 2`, marked `// TODO
calculate`; `calculate_size` is never called from `stat`). -/
theorem stat_size_doubles_backing_size :
    (Mp3V0Fs.stat envC3 fsC3 2 "/notes.txt").map FileAttr.size = some 200 ∧
    mdC3.msize = 100 := by
  constructor
  · decide
  · rfl

/-- C4 counterexample: a `read` on the root inode with a handle that has
no registered session panics (the source arm
`None => panic!("Failed to read encoder from fds")`), rather than
returning a filesystem error to the client. -/
theorem read_panics_on_unregistered_handle :
    (Mp3V0Fs.read testEncImpl 10 fsC4 1 7 4).fst = ReadReply.panicked := by
  decide

/-- C4 (amended): a `read` whose inode is unknown to the inode table
aborts with error 1 to the client, but a `read` whose inode resolves
while the handle has no registered session panics, and
`InodeTable::lookup` on an unknown inode panics as well. -/
theorem read_and_lookup_contract_violations :
    (∀ (σ : Type) (impl : EncodeImpl σ) (fuel : Nat) (fs : Mp3V0Fs σ) (ino fh size : Nat),
      fs.inode_table.get_path ino = none →
      Mp3V0Fs.read impl fuel fs ino fh size = (.error 1, fs)) ∧
    (∀ (σ : Type) (impl : EncodeImpl σ) (fuel : Nat) (fs : Mp3V0Fs σ) (ino fh size : Nat)
      (p : String),
      fs.inode_table.get_path ino = some p → fs.fds fh = none →
      Mp3V0Fs.read impl fuel fs ino fh size = (.panicked, fs)) ∧
    (∀ (t : InodeTable) (i : Nat), t.paths_by_inode i = none → t.lookup i = none) := by
  refine ⟨?_, ?_, ?_⟩
  · intro σ impl fuel fs ino fh size h
    unfold Mp3V0Fs.read
    rw [h]
  · intro σ impl fuel fs ino fh size p h1 h2
    unfold Mp3V0Fs.read
    rw [h1]
    simp only
    rw [h2]
  · intro t i h
    unfold InodeTable.lookup
    rw [h]

/-- Witness for the amended C4 theorem: an unknown inode 5 errors, the
root inode with unregistered handle 7 panics, and a lookup of inode 5 on
the fresh table panics. -/
theorem read_and_lookup_contract_violations_witness :
    (fsC4.inode_table.get_path 5 = none ∧
      Mp3V0Fs.read testEncImpl 10 fsC4 5 1 4 = (.error 1, fsC4)) ∧
    (fsC4.inode_table.get_path 1 = some "/" ∧ fsC4.fds 7 = none ∧
      Mp3V0Fs.read testEncImpl 10 fsC4 1 7 4 = (.panicked, fsC4)) ∧
    (InodeTable.new.paths_by_inode 5 = none ∧ InodeTable.new.lookup 5 = none) :=
  ⟨⟨rfl, read_and_lookup_contract_violations.1 TestEnc testEncImpl 10 fsC4 5 1 4 rfl⟩,
    ⟨rfl, rfl,
      read_and_lookup_contract_violations.2.1 TestEnc testEncImpl 10 fsC4 1 7 4 "/" rfl rfl⟩,
    ⟨rfl, read_and_lookup_contract_violations.2.2 InodeTable.new 5 rfl⟩⟩

/-- C5 counterexample: the second `open` on the same inode without an
intervening release replies with error code 1 (EPERM), which is not EIO
(error code 5). -/
theorem second_open_returns_eperm_not_eio :
    (Mp3V0Fs.openFile envC5 mkC5
      (Mp3V0Fs.openFile envC5 mkC5 fsC5 1 0).snd 1 0).fst = OpenReply.error 1 ∧
    OpenReply.error 1 ≠ OpenReply.error 5 := by
  constructor
  · decide
  · decide

/-- C5 (amended): the first `open` on a resolvable inode with no live
session succeeds, registering exactly one session under the inode (the
handle), and a second `open` on the same inode without a release fails
with error code 1 (EPERM, not EIO) leaving the state unchanged. -/
theorem open_double_open_behavior (σ : Type) (env : BackingFs)
    (mk : String → Option σ) (fs : Mp3V0Fs σ) (ino flags : Nat)
    (path rp : String) (s : σ)
    (hpath : fs.inode_table.get_path ino = some path)
    (hrp : real_path env fs.target path = some rp)
    (hmk : mk rp = some s)
    (hfree : fs.fds ino = none) :
    Mp3V0Fs.openFile env mk fs ino flags =
      (OpenReply.opened ino flags,
        { fs with fds := fun j => if j = ino then some s else fs.fds j }) ∧
    Mp3V0Fs.openFile env mk
        { fs with fds := fun j => if j = ino then some s else fs.fds j } ino flags =
      (OpenReply.error 1,
        { fs with fds := fun j => if j = ino then some s else fs.fds j }) := by
  constructor
  · unfold Mp3V0Fs.openFile
    rw [hpath]
    simp only
    rw [hrp]
    simp only
    rw [hfree]
    simp only
    rw [hmk]
  · unfold Mp3V0Fs.openFile
    simp only
    rw [hpath]
    simp only
    rw [hrp]
    simp

/-- Witness for the amended C5 theorem on a fresh mount of target `t`. -/
theorem open_double_open_behavior_witness :
    fsC5.inode_table.get_path 1 = some "/" ∧
    real_path envC5 fsC5.target "/" = some "t" ∧
    mkC5 "t" = some () ∧ fsC5.fds 1 = none ∧
    (Mp3V0Fs.openFile envC5 mkC5 fsC5 1 0 =
        (OpenReply.opened 1 0,
          { fsC5 with fds := fun j => if j = 1 then some () else fsC5.fds j }) ∧
      Mp3V0Fs.openFile envC5 mkC5
          { fsC5 with fds := fun j => if j = 1 then some () else fsC5.fds j } 1 0 =
        (OpenReply.error 1,
          { fsC5 with fds := fun j => if j = 1 then some () else fsC5.fds j })) :=
  ⟨rfl, rfl, rfl, rfl,
    open_double_open_behavior Unit envC5 mkC5 fsC5 1 0 "/" "t" () rfl rfl rfl rfl⟩

/-! Helper lemmas for the readdir listing characterization. -/

theorem add_or_get_isSome (t : InodeTable) (parent : Nat) (name : String)
    (h : (t.paths_by_inode parent).isSome = true) :
    ∃ r t2, t.add_or_get parent name = some (r, t2) ∧
      ∀ j, (t.paths_by_inode j).isSome = true → (t2.paths_by_inode j).isSome = true := by
  cases hp : t.paths_by_inode parent with
  | none => rw [hp] at h; cases h
  | some parentPath =>
    cases hq : t.inodes_by_path (pathJoin parentPath name) with
    | some e =>
      refine ⟨(e.inode, pathJoin parentPath name), t, ?_, fun j hj => hj⟩
      unfold InodeTable.add_or_get
      rw [hp]
      simp only
      rw [hq]
    | none =>
      refine ⟨(t.next_inode, pathJoin parentPath name),
        { inodes_by_path := fun p => if p = pathJoin parentPath name
            then some ⟨t.next_inode, 0⟩ else t.inodes_by_path p,
          paths_by_inode := fun i => if i = t.next_inode
            then some (pathJoin parentPath name) else t.paths_by_inode i,
          next_inode := (t.next_inode + 1) % U64 }, ?_, ?_⟩
      · unfold InodeTable.add_or_get
        rw [hp]
        simp only
        rw [hq]
      · intro j hj
        show (if j = t.next_inode then some (pathJoin parentPath name)
          else t.paths_by_inode j).isSome = true
        by_cases hjj : j = t.next_inode
        · rw [if_pos hjj]
          rfl
        · rw [if_neg hjj]
          exact hj

theorem readdirLoop_names (dirIno : Nat) (base : String) (cap : Nat)
    (entries : List (String × RFileType)) :
    ∀ (idx : Nat) (acc : List (Nat × Int × FuseFileType × String)) (tbl : InodeTable),
      (tbl.paths_by_inode dirIno).isSome = true →
      acc.length + entries.length ≤ cap →
      (∀ p ∈ entries, p.1 ≠ "" ∧ ('/' : Char) ∉ p.1.data) →
      ∃ l tbl2,
        readdirLoop dirIno base cap (entries.map mkOkEntry) idx acc tbl = (.ok l, tbl2) ∧
        l.map (fun x => x.2.2.2) = acc.map (fun x => x.2.2.2) ++
          entries.filterMap (fun p =>
            if p.2 = RFileType.other then none else some (projectedName p.1)) := by
  induction entries with
  | nil =>
    intro idx acc tbl hs hlen hnames
    exact ⟨acc, tbl, rfl, by simp⟩
  | cons p rest ih =>
    obtain ⟨name, ft⟩ := p
    intro idx acc tbl hs hlen hnames
    obtain ⟨hn1, hn2⟩ := hnames (name, ft) (List.mem_cons_self _ _)
    rcases add_or_get_isSome tbl dirIno (fuse_path (joinRel base name)) hs with
      ⟨r, tbl2, hao, hpres⟩
    have hmap : ((name, ft) :: rest).map mkOkEntry =
        DirEntryRes.okEntry name (some ft) :: rest.map mkOkEntry := rfl
    rw [hmap]
    simp only [readdirLoop]
    rw [hao]
    simp only
    cases haft : adapt_filetype ft with
    | none =>
      have hft : ft = RFileType.other := by
        cases ft with
        | other => rfl
        | regular => exact absurd haft (by decide)
        | directory => exact absurd haft (by decide)
        | symlink => exact absurd haft (by decide)
      rcases ih (idx + 1) acc tbl2 (hpres dirIno hs)
        (by simp only [List.length_cons] at hlen; omega)
        (fun q hq => hnames q (List.mem_cons_of_mem _ hq)) with ⟨l, tbl3, hl, hnm⟩
      refine ⟨l, tbl3, hl, ?_⟩
      rw [hnm, List.filterMap_cons]
      rw [if_pos hft]
    | some fft =>
      have hftne : ¬ ft = RFileType.other := by
        intro he
        rw [he] at haft
        cases haft
      have hlt : acc.length < cap := by
        simp only [List.length_cons] at hlen
        omega
      simp only
      rw [if_pos hlt]
      rcases ih (idx + 1)
        (acc ++ [(r.1, (1 : Int) + (idx : Int), fft,
          parse_name (fuse_path (joinRel base name)))]) tbl2
        (hpres dirIno hs)
        (by simp only [List.length_append, List.length_cons, List.length_nil] at *; omega)
        (fun q hq => hnames q (List.mem_cons_of_mem _ hq)) with ⟨l, tbl3, hl, hnm⟩
      refine ⟨l, tbl3, hl, ?_⟩
      rw [hnm, List.filterMap_cons, if_neg hftne, List.map_append]
      simp only [List.map_cons, List.map_nil]
      rw [parse_name_fuse_path base name hn1 hn2, List.append_assoc]
      rfl

/-- C1 (amended): every successfully read backing entry of a supported
file type (regular file, directory or symlink) appears in the `readdir`
listing; its name has the extension rewritten from `flac` to `mp3`
(whatever its file type) and is carried unchanged otherwise — in
particular non-FLAC files such as `notes.txt` are listed, not filtered;
entries of unsupported file types are skipped. -/
theorem readdir_projected_listing (σ : Type) (env : BackingFs) (cap : Nat)
    (fs : Mp3V0Fs σ) (ino : Nat) (dirPath rel : String)
    (entries : List (String × RFileType))
    (h1 : fs.inode_table.get_path ino = some dirPath)
    (h2 : real_path_rel env fs.target dirPath = some rel)
    (h3 : env.readDir (joinRel fs.target rel) = some (entries.map mkOkEntry))
    (h4 : ∀ p ∈ entries, p.1 ≠ "" ∧ ('/' : Char) ∉ p.1.data)
    (h5 : entries.length ≤ cap) :
    ∃ l tbl2,
      Mp3V0Fs.readdir env cap fs ino 0 = (.ok l, { fs with inode_table := tbl2 }) ∧
      l.map (fun x => x.2.2.2) = entries.filterMap (fun p =>
        if p.2 = RFileType.other then none else some (projectedName p.1)) := by
  have hs : (fs.inode_table.paths_by_inode ino).isSome = true := by
    rw [show fs.inode_table.paths_by_inode ino = fs.inode_table.get_path ino from rfl, h1]
    rfl
  rcases readdirLoop_names ino rel cap entries 0 [] fs.inode_table hs
    (by simpa using h5) h4 with ⟨l, tbl2, hl, hnm⟩
  refine ⟨l, tbl2, ?_, by simpa using hnm⟩
  unfold Mp3V0Fs.readdir
  rw [if_neg (by norm_num : ¬ (0 : Int) < 0), h1]
  simp only
  rw [h2]
  simp only
  rw [h3]
  simp only
  rw [hl]

/-- C1 counterexample: a source directory holding `C1.flac` and
`notes.txt` is listed as `C1.mp3` and `notes.txt` — the non-FLAC file
appears in the listing instead of being filtered out. -/
theorem readdir_does_not_filter_non_flac :
    (Mp3V0Fs.readdir envC1 100 fsC1 1 0).fst =
      ReaddirReply.ok
        [(2, 1, .regularFile, "C1.mp3"), (3, 2, .regularFile, "notes.txt")] := by
  decide

/-- Witness for the amended C1 theorem on the concrete directory
`entriesC1`. -/
theorem readdir_projected_listing_witness :
    fsC1.inode_table.get_path 1 = some "/" ∧
    real_path_rel envC1 fsC1.target "/" = some "" ∧
    envC1.readDir (joinRel fsC1.target "") = some (entriesC1.map mkOkEntry) ∧
    (∀ p ∈ entriesC1, p.1 ≠ "" ∧ ('/' : Char) ∉ p.1.data) ∧
    entriesC1.length ≤ 100 ∧
    ∃ l tbl2,
      Mp3V0Fs.readdir envC1 100 fsC1 1 0 = (.ok l, { fsC1 with inode_table := tbl2 }) ∧
      l.map (fun x => x.2.2.2) = entriesC1.filterMap (fun p =>
        if p.2 = RFileType.other then none else some (projectedName p.1)) :=
  ⟨rfl, rfl, rfl, by decide, by decide,
    readdir_projected_listing Unit envC1 100 fsC1 1 "/" "" entriesC1 rfl rfl rfl
      (by decide) (by decide)⟩

/-- C6 counterexample: for a session with one sample at 44100 Hz, a zero
tag and the 320 kbps cap, the source computes `0 + 2880 + 460800 / 441 =
3924` with truncating division, while the claimed ceiling division gives
`3925`. -/
theorem calculate_size_floors_division :
    calculate_size sessC6 = some 3924 ∧ specCalculateSize sessC6 = some 3925 := by
  constructor
  · decide
  · decide

/-- C6 (amended): under realistic bounds (sample count and tag size below
2^40, bitrate at most 320 kbps, output rate at least 100 Hz),
`calculate_size` equals `tag_size + 2880 + (samples * 144 * bitrate * 10)
/ (out_samplerate / 100)` computed in exact integer arithmetic with a
truncating (floor) division, not a ceiling. -/
theorem calculate_size_closed_form (e : Mp3SessionInfo) (sc : Nat)
    (hs : e.stream_info.samples = some sc)
    (hrate : 100 ≤ e.out_samplerate)
    (hsc : sc < 2 ^ 40)
    (hb : e.vbr_max_bitrate ≤ 320)
    (htag : e.tag_size < 2 ^ 40) :
    calculate_size e = some (e.tag_size + MAX_VBR_FRAME_SIZE +
      sc * 144 * e.vbr_max_bitrate * 10 / (e.out_samplerate / 100)) := by
  unfold calculate_size
  rw [hs]
  simp only
  have hdiv : ¬ (e.out_samplerate / 100 = 0) := by
    have h0 : 1 * 100 ≤ e.out_samplerate := by omega
    have := (Nat.le_div_iff_mul_le (by norm_num : 0 < 100)).mpr h0
    omega
  rw [if_neg hdiv]
  have hc1 : (2 : Nat) ^ 40 * 144 < U64 := by decide
  have hc2 : (2 : Nat) ^ 40 * 144 * 320 < U64 := by decide
  have hc3 : (2 : Nat) ^ 40 * 460800 < U64 := by decide
  have hb1 : sc * 144 < 2 ^ 40 * 144 :=
    (Nat.mul_lt_mul_right (by norm_num)).mpr hsc
  have hb2 : sc * 144 * e.vbr_max_bitrate ≤ 2 ^ 40 * 144 * 320 := by
    calc sc * 144 * e.vbr_max_bitrate ≤ sc * 144 * 320 :=
          Nat.mul_le_mul_left _ hb
      _ ≤ 2 ^ 40 * 144 * 320 := Nat.mul_le_mul_right _ (le_of_lt hb1)
  have hb3 : sc * 144 * e.vbr_max_bitrate * 10 ≤ 2 ^ 40 * 460800 := by
    calc sc * 144 * e.vbr_max_bitrate * 10 ≤ 2 ^ 40 * 144 * 320 * 10 :=
          Nat.mul_le_mul_right _ hb2
      _ = 2 ^ 40 * 460800 := by ring
  have e1 : mul64 sc 144 = sc * 144 :=
    Nat.mod_eq_of_lt (lt_trans hb1 hc1)
  have e2 : mul64 (sc * 144) e.vbr_max_bitrate = sc * 144 * e.vbr_max_bitrate :=
    Nat.mod_eq_of_lt (lt_of_le_of_lt hb2 hc2)
  have e3 : mul64 (sc * 144 * e.vbr_max_bitrate) 10 = sc * 144 * e.vbr_max_bitrate * 10 :=
    Nat.mod_eq_of_lt (lt_of_le_of_lt hb3 hc3)
  have hq : sc * 144 * e.vbr_max_bitrate * 10 / (e.out_samplerate / 100) ≤
      2 ^ 40 * 460800 :=
    le_trans (Nat.div_le_self _ _) hb3
  have hcst : (2 : Nat) ^ 40 + 2880 < U64 := by decide
  have hcst2 : (2 : Nat) ^ 40 + 2880 + 2 ^ 40 * 460800 < U64 := by decide
  have a1 : add64 e.tag_size MAX_VBR_FRAME_SIZE = e.tag_size + MAX_VBR_FRAME_SIZE := by
    unfold add64 MAX_VBR_FRAME_SIZE
    exact Nat.mod_eq_of_lt (by omega)
  have a2 : add64 (e.tag_size + MAX_VBR_FRAME_SIZE)
      (sc * 144 * e.vbr_max_bitrate * 10 / (e.out_samplerate / 100)) =
      e.tag_size + MAX_VBR_FRAME_SIZE +
        sc * 144 * e.vbr_max_bitrate * 10 / (e.out_samplerate / 100) := by
    unfold add64 MAX_VBR_FRAME_SIZE at *
    exact Nat.mod_eq_of_lt (by omega)
  rw [e1, e2, e3, a1, a2]

/-- Witness for the amended C6 theorem on the session `sessC6w` (1000
samples, 100-byte tag, 320 kbps, 44100 Hz). -/
theorem calculate_size_closed_form_witness :
    sessC6w.stream_info.samples = some 1000 ∧
    100 ≤ sessC6w.out_samplerate ∧ (1000 : Nat) < 2 ^ 40 ∧
    sessC6w.vbr_max_bitrate ≤ 320 ∧ sessC6w.tag_size < 2 ^ 40 ∧
    calculate_size sessC6w = some (sessC6w.tag_size + MAX_VBR_FRAME_SIZE +
      1000 * 144 * sessC6w.vbr_max_bitrate * 10 / (sessC6w.out_samplerate / 100)) :=
  ⟨rfl, by decide, by decide, by decide, by decide,
    calculate_size_closed_form sessC6w 1000 rfl (by decide) (by decide) (by decide)
      (by decide)⟩

/-- Witness for the C10 theorem on the table `tC10` (inode 2 with three
lookups): forgetting five lookups underflows, and forgetting at most
three behaves exactly. -/
theorem forget_unguarded_subtraction_witness :
    (2 : Nat) ≠ 1 ∧ (3 : Nat) < U64 ∧ (5 : Nat) < U64 ∧
    (((3 : Nat) < 5 →
        (tC10.forget 2 5).inodes_by_path "/a" = some ⟨2, 3 + (U64 - 5)⟩ ∧
        3 + (U64 - 5) ≠ 0) ∧
      ((5 : Nat) ≤ 3 →
        (tC10.forget 2 5).inodes_by_path "/a" =
          (if (3 : Nat) = 5 then none else some ⟨2, 3 - 5⟩) ∧
        (tC10.forget 2 5).paths_by_inode 2 =
          (if (3 : Nat) = 5 then none else some "/a"))) :=
  ⟨by decide, by decide, by decide,
    forget_unguarded_subtraction tC10 2 5 "/a" ⟨2, 3⟩ (by decide) rfl rfl
      (by decide) (by decide)⟩
